import Mathlib

/-! Verification of range-v3 `views::iota` / `views::closed_iota`: arithmetic helpers
and cursors.

A shallow embedding of `include/range/v3/view/iota.hpp` and of the call operator of
`actions::take` in `include/range/v3/action/take.hpp`.

Machine integers are mathematical integers (`Int`) together with an explicit
reduction into the range of the integral type (`IntTy.wrap`): unsigned arithmetic is
modulo `2 ^ bits`, and signed arithmetic and conversions are modelled in two's
complement (the result of every operation is reduced into
`[-2 ^ (bits - 1), 2 ^ (bits - 1))`).

The difference type `iota_difference_t<I>` depends on declarations that are not part
of `iota.hpp` (`iter_difference_t`, `int_fastN_t`, `diffmax_t`), so its width in bits
is a parameter `d` of every operation that uses it; it is always a signed type.

A failed `RANGES_EXPECT` / `RANGES_ENSURE` is a contract violation; operations that
contain such a check return `Option`, and `none` is the contract violation.

The source leaves `++from_` at the largest value and `--from_` at the smallest value of
a signed type undefined. The definitions give these two steps the two's-complement
result, but no statement about the source is drawn from it: every theorem on a single
step of a signed type assumes, or proves, that the step is defined (`IntTy.IncDefined`,
`IntTy.DecDefined`).
-/

namespace ranges

/-- An integral type: its signedness and its width in bits. -/
structure IntTy where
  isSigned : Bool
  bits : Nat
deriving DecidableEq, Repr

namespace IntTy

/-- Smallest value of the type (`std::numeric_limits<I>::min()`). -/
def minVal (I : IntTy) : Int :=
  if I.isSigned then -(2 ^ (I.bits - 1)) else 0

/-- Largest value of the type (`std::numeric_limits<I>::max()`). -/
def maxVal (I : IntTy) : Int :=
  if I.isSigned then 2 ^ (I.bits - 1) - 1 else 2 ^ I.bits - 1

/-- The integer `x` is a value of the type `I`. -/
def InRange (I : IntTy) (x : Int) : Prop :=
  I.minVal ≤ x ∧ x ≤ I.maxVal

instance (I : IntTy) (x : Int) : Decidable (I.InRange x) := by
  unfold InRange; infer_instance

/-- Conversion of a mathematical result to the type `I`: modulo `2 ^ bits` for an
unsigned type, two's complement for a signed one. -/
def wrap (I : IntTy) (x : Int) : Int :=
  if I.isSigned then (x + 2 ^ (I.bits - 1)) % 2 ^ I.bits - 2 ^ (I.bits - 1)
  else x % 2 ^ I.bits

/-- The increment `++x` of a value `x` of the type is defined by the language: on an
unsigned type always (modulo `2 ^ bits`), on a signed type when `x` is below the largest
value. -/
def IncDefined (I : IntTy) (x : Int) : Prop :=
  I.isSigned = false ∨ x < I.maxVal

instance (I : IntTy) (x : Int) : Decidable (I.IncDefined x) := by
  unfold IncDefined; infer_instance

/-- The decrement `--x` of a value `x` of the type is defined by the language: on an
unsigned type always (modulo `2 ^ bits`), on a signed type when `x` is above the smallest
value. -/
def DecDefined (I : IntTy) (x : Int) : Prop :=
  I.isSigned = false ∨ I.minVal < x

instance (I : IntTy) (x : Int) : Decidable (I.DecDefined x) := by
  unfold DecDefined; infer_instance

end IntTy

/-- The signed difference type of width `d` bits. -/
def diffTy (d : Nat) : IntTy := ⟨true, d⟩

/-- The conversion `static_cast<iota_difference_t<I>>(x)` to the `d`-bit signed
difference type. -/
def castD (d : Nat) (x : Int) : Int := (diffTy d).wrap x

/-- A `bool` converted to an integer (`false` is 0, `true` is 1). -/
def b2i (b : Bool) : Int := if b then 1 else 0

/-- Modelled from the spec: the body of the `RANGES_EXPECT` macro is not part of
`iota.hpp`. A check whose condition is false is a contract violation that fails
immediately (`none`); a check whose condition is true has no effect. -/
def RANGES_EXPECT (cond : Bool) : Option Unit :=
  if cond then some () else none

/-- Modelled from the spec: the body of the `RANGES_ENSURE` macro is not part of
`iota.hpp`. A check whose condition is false is a contract violation that fails
immediately (`none`); a check whose condition is true has no effect. -/
def RANGES_ENSURE (cond : Bool) : Option Unit :=
  if cond then some () else none

namespace detail

/-- The overload of `iota_advance_` for a type that is not an unsigned integral
(`i += n`): the sum is formed in the difference type and converted back to `I`. -/
def iota_advance_signed (I : IntTy) (d : Nat) (i n : Int) : Int :=
  I.wrap (castD d (i + n))

/-- The overload of `iota_advance_` for an unsigned integral type:
`if(n >= 0) i += static_cast<Int>(n); else i -= static_cast<Int>(-n);`. -/
def iota_advance_unsigned (I : IntTy) (d : Nat) (i n : Int) : Int :=
  if n ≥ 0 then I.wrap (i + I.wrap n)
  else I.wrap (i - I.wrap (castD d (-n)))

/-- The function `iota_advance_(i, n)`: the new value of `i`. Overload resolution is on
the signedness of `I`. -/
def iota_advance_ (I : IntTy) (d : Nat) (i n : Int) : Int :=
  if I.isSigned then iota_advance_signed I d i n else iota_advance_unsigned I d i n

/-- The overload of `iota_distance_` for a signed integral type: both operands are
converted to the difference type and subtracted there. -/
def iota_distance_signed (d : Nat) (i0 i1 : Int) : Int :=
  castD d (castD d i1 - castD d i0)

/-- The overload of `iota_distance_` for an unsigned integral type:
`(i0 > i1) ? D(-D(i0 - i1)) : D(i1 - i0)`, the inner subtraction being unsigned. -/
def iota_distance_unsigned (I : IntTy) (d : Nat) (i0 i1 : Int) : Int :=
  if i0 > i1 then castD d (-(castD d (I.wrap (i0 - i1))))
  else castD d (I.wrap (i1 - i0))

/-- The function `iota_distance_(i0, i1)` on an integral type. -/
def iota_distance_ (I : IntTy) (d : Nat) (i0 i1 : Int) : Int :=
  if I.isSigned then iota_distance_signed d i0 i1 else iota_distance_unsigned I d i0 i1

end detail

/-- Outcome of a traversal loop run with a bound on the number of iterations. -/
inductive Traversal where
  /-- the cursor reached the end cursor; the values read, in order -/
  | finished (out : List Int)
  /-- a `RANGES_EXPECT` failed during the traversal -/
  | violation
  /-- the iteration bound was reached before the end cursor -/
  | outOfFuel
deriving DecidableEq, Repr

/-- Puts a value that was read in front of the outcome of the rest of the loop. -/
def Traversal.cons (v : Int) : Traversal → Traversal
  | .finished out => .finished (v :: out)
  | .violation => .violation
  | .outOfFuel => .outOfFuel

/-- The view `closed_iota_view<From, From>`: the two data members. -/
structure closed_iota_view where
  from_ : Int
  to_ : Int
deriving DecidableEq, Repr

namespace closed_iota_view

/-- The nested `closed_iota_view::cursor`: current value, bound, exhausted flag. -/
structure cursor where
  from_ : Int
  to_ : Int
  done_ : Bool
deriving DecidableEq, Repr

namespace cursor

/-- The member `read()`: `RANGES_EXPECT(!done_); return from_;`. -/
def read (c : cursor) : Option Int :=
  (RANGES_EXPECT (!c.done_)).bind fun _ =>
  some c.from_

/-- The member `next()`: `RANGES_EXPECT(!done_); if(from_ == to_) done_ = true; else ++from_;`.
The increment is defined by the language when `I.IncDefined from_`. -/
def next (I : IntTy) (c : cursor) : Option cursor :=
  (RANGES_EXPECT (!c.done_)).bind fun _ =>
  if c.from_ == c.to_ then some { c with done_ := true }
  else some { c with from_ := I.wrap (c.from_ + 1) }

/-- The member `equal(cursor const &)`: `that.from_ == from_ && that.done_ == done_`. -/
def equal (c that : cursor) : Bool :=
  that.from_ == c.from_ && that.done_ == c.done_

/-- The member `equal(default_sentinel_t)`: `return done_;`. -/
def equal_sentinel (c : cursor) : Bool :=
  c.done_

/-- The member `prev()`: `if(done_) done_ = false; else --from_;`. The source has no
check here, so the result is never `none`. The decrement is defined by the language when
`I.DecDefined from_`. -/
def prev (I : IntTy) (c : cursor) : Option cursor :=
  if c.done_ then some { c with done_ := false }
  else some { c with from_ := I.wrap (c.from_ - 1) }

/-- The member `advance(n)`. For `n > 0` the `RANGES_ENSURE` is checked, then `done_`
is assigned inside the argument of `iota_advance_`, which reads the old `from_` and the
old `done_`; for `n < 0` the old `done_` is added to `n` and `done_` is cleared. -/
def advance (I : IntTy) (d : Nat) (c : cursor) (n : Int) : Option cursor :=
  if n > 0 then
    (RANGES_ENSURE
      (decide (detail.iota_distance_ I d c.from_ c.to_ ≥ castD d (n - b2i (!c.done_))))).bind
    fun _ =>
    let done' : Bool :=
      decide (detail.iota_distance_ I d c.from_ c.to_ ≤ castD d (n - b2i (!c.done_)))
    some { from_ := detail.iota_advance_ I d c.from_ (castD d (n - b2i done'))
           to_ := c.to_
           done_ := done' }
  else if n < 0 then
    some { from_ := detail.iota_advance_ I d c.from_ (castD d (n + b2i c.done_))
           to_ := c.to_
           done_ := false }
  else some c

/-- The member `distance_to(cursor const &)`:
`D(iota_distance_(from_, that.from_)) + ((D)that.done_ - (D)done_)`. -/
def distance_to (I : IntTy) (d : Nat) (c that : cursor) : Int :=
  castD d (castD d (detail.iota_distance_ I d c.from_ that.from_)
    + castD d (b2i that.done_ - b2i c.done_))

/-- The result of `k` successive calls of `next()`; `none` as soon as one of them is a
contract violation. -/
def nextN (I : IntTy) : Nat → cursor → Option cursor
  | 0, c => some c
  | k + 1, c => (c.next I).bind (nextN I k)

/-- The state predicate `from_ <= to_` and `done_` implies `from_ == to_`. -/
def Inv (c : cursor) : Prop :=
  c.from_ ≤ c.to_ ∧ (c.done_ = true → c.from_ = c.to_)

instance (c : cursor) : Decidable c.Inv := by
  unfold Inv; infer_instance

/-- State invariant of a cursor of a closed sequence over the type `I`: both values
are values of `I`, `from_ <= to_`, and `done_` implies `from_ == to_`. -/
def Valid (I : IntTy) (c : cursor) : Prop :=
  I.InRange c.from_ ∧ I.InRange c.to_ ∧ c.from_ ≤ c.to_ ∧ (c.done_ = true → c.from_ = c.to_)

instance (I : IntTy) (c : cursor) : Decidable (c.Valid I) := by
  unfold Valid; infer_instance

end cursor

/-- The member `begin_cursor()`: `return {from_, to_};` (`done` defaults to `false`). -/
def begin_cursor (v : closed_iota_view) : cursor :=
  { from_ := v.from_, to_ := v.to_, done_ := false }

/-- The member `end_cursor()` for `same_as<From, To>`: `return {to_, to_, true};`. -/
def end_cursor (v : closed_iota_view) : cursor :=
  { from_ := v.to_, to_ := v.to_, done_ := true }

/-- The member `check_bounds_`: `RANGES_EXPECT(from_ <= to_)` when
`totally_ordered_with<From, To>` (`ordered`), no check otherwise. -/
def check_bounds_ (ordered : Bool) (v : closed_iota_view) : Option Unit :=
  if ordered then RANGES_EXPECT (decide (v.from_ ≤ v.to_)) else some ()

/-- The constructor `closed_iota_view(from, to)`: stores both and runs
`check_bounds_`. -/
def mk? (ordered : Bool) (a b : Int) : Option closed_iota_view :=
  (check_bounds_ ordered ⟨a, b⟩).map fun _ => ⟨a, b⟩

/-- Modelled from the spec: the loop that drives a cursor (`view_facade`,
`basic_iterator`) is not part of `iota.hpp`. A traversal starts at the begin cursor and,
while the cursor is not equal to the end cursor, calls `read()` then `next()`; here for
at most `fuel` iterations. -/
def traverse (I : IntTy) : Nat → cursor → cursor → Traversal
  | 0, c, e => if c.equal e then .finished [] else .outOfFuel
  | fuel + 1, c, e =>
    if c.equal e then .finished []
    else
      match c.read with
      | none => .violation
      | some v =>
        match c.next I with
        | none => .violation
        | some c' => Traversal.cons v (traverse I fuel c' e)

/-- Traversal of a whole view, from `begin_cursor()` to `end_cursor()`. -/
def toList (I : IntTy) (fuel : Nat) (v : closed_iota_view) : Traversal :=
  traverse I fuel v.begin_cursor v.end_cursor

/-- The operand of the `++from_` in a call of `next()` on the cursor `c`: the current
value when the call passes `RANGES_EXPECT(!done_)` and takes the `else` branch, nothing
when the check fails or when `from_ == to_` and the call sets `done_` instead. -/
def cursor.incremented (c : cursor) : Option Int :=
  (RANGES_EXPECT (!c.done_)).bind fun _ =>
  if c.from_ == c.to_ then none else some c.from_

/-- The operands, in order, of all the increments `++from_` that the traversal loop
`traverse` performs through its `next()` calls; `none` when the loop does not reach the
end cursor within `fuel` iterations or meets a contract violation. -/
def increments (I : IntTy) : Nat → cursor → cursor → Option (List Int)
  | 0, c, e => if c.equal e then some [] else none
  | fuel + 1, c, e =>
    if c.equal e then some []
    else
      match c.read with
      | none => none
      | some _ =>
        match c.next I with
        | none => none
        | some c' => (increments I fuel c' e).map fun l => c.incremented.toList ++ l

/-- The cursor states, in order, that the traversal loop `traverse` goes through, the
end cursor included; `none` when the loop does not reach the end cursor within `fuel`
iterations or meets a contract violation. -/
def visited (I : IntTy) : Nat → cursor → cursor → Option (List cursor)
  | 0, c, e => if c.equal e then some [c] else none
  | fuel + 1, c, e =>
    if c.equal e then some [c]
    else
      match c.read with
      | none => none
      | some _ =>
        match c.next I with
        | none => none
        | some c' => (visited I fuel c' e).map fun l => c :: l

end closed_iota_view

/-- The view `iota_view<From, From>` with a bound of the same type: the two data
members. -/
structure iota_view where
  from_ : Int
  to_ : Int
deriving DecidableEq, Repr

namespace iota_view

/-- The nested `iota_view::cursor`: the current value only. -/
structure cursor where
  from_ : Int
deriving DecidableEq, Repr

namespace cursor

/-- The member `read()`: `return from_;`. -/
def read (c : cursor) : Int := c.from_

/-- The member `next()`: `++from_;`. -/
def next (I : IntTy) (c : cursor) : cursor := ⟨I.wrap (c.from_ + 1)⟩

/-- The member `equal(cursor const &)`: `that.from_ == from_`. -/
def equal (c that : cursor) : Bool := that.from_ == c.from_

/-- The member `prev()`: `--from_;`. -/
def prev (I : IntTy) (c : cursor) : cursor := ⟨I.wrap (c.from_ - 1)⟩

/-- The member `advance(n)`: `iota_advance_(from_, n);`. -/
def advance (I : IntTy) (d : Nat) (c : cursor) (n : Int) : cursor :=
  ⟨detail.iota_advance_ I d c.from_ n⟩

/-- The member `distance_to(cursor const &)`: `iota_distance_(from_, that.from_)`. -/
def distance_to (I : IntTy) (d : Nat) (c that : cursor) : Int :=
  detail.iota_distance_ I d c.from_ that.from_

end cursor

/-- The member `begin_cursor()`: `return cursor{from_};`. -/
def begin_cursor (v : iota_view) : cursor := ⟨v.from_⟩

/-- The member `end_cursor()` for a bound of the same type as `From`: `cursor{to_}`. -/
def end_cursor (v : iota_view) : cursor := ⟨v.to_⟩

/-- The member `check_bounds_`: `RANGES_EXPECT(from_ <= to_)` when
`totally_ordered_with<From, To>` (`ordered`), no check otherwise. -/
def check_bounds_ (ordered : Bool) (v : iota_view) : Option Unit :=
  if ordered then RANGES_EXPECT (decide (v.from_ ≤ v.to_)) else some ()

/-- The constructor `iota_view(from, to)`: stores both and runs `check_bounds_`. -/
def mk? (ordered : Bool) (a b : Int) : Option iota_view :=
  (check_bounds_ ordered ⟨a, b⟩).map fun _ => ⟨a, b⟩

/-- Modelled from the spec: the loop that drives a cursor (`view_facade`,
`basic_iterator`) is not part of `iota.hpp`. A traversal starts at the begin cursor and,
while the cursor is not equal to the end cursor, calls `read()` then `next()`; here for
at most `fuel` iterations. -/
def traverse (I : IntTy) : Nat → cursor → cursor → Traversal
  | 0, c, e => if c.equal e then .finished [] else .outOfFuel
  | fuel + 1, c, e =>
    if c.equal e then .finished []
    else Traversal.cons c.read (traverse I fuel (c.next I) e)

/-- Traversal of a whole view, from `begin_cursor()` to `end_cursor()`. -/
def toList (I : IntTy) (fuel : Nat) (v : iota_view) : Traversal :=
  traverse I fuel v.begin_cursor v.end_cursor

end iota_view

namespace views

/-- The call `views::iota(from, to)` with both arguments of one integral type:
`return {from, to};`. Integral types are totally ordered. -/
def iota (a b : Int) : Option iota_view := iota_view.mk? true a b

/-- The call `views::ints(from, to)`: `return {from, to};`. -/
def ints (a b : Int) : Option iota_view := iota_view.mk? true a b

/-- The call `views::closed_iota(from, to)` with both arguments of one integral type:
`return {from, to};`. -/
def closed_iota (a b : Int) : Option closed_iota_view := closed_iota_view.mk? true a b

end views

/-- The expected contents of a traversal from `a` up to, not including, `b`:
`[a, a + 1, ..., b - 1]`. -/
def intsUpTo (a b : Int) : List Int :=
  (List.range (b - a).toNat).map fun (k : Nat) => a + (k : Int)

/-- The type `int` (32 bits). -/
def int32 : IntTy := ⟨true, 32⟩

/-- The type `unsigned int` (32 bits). -/
def uint32 : IntTy := ⟨false, 32⟩

/-- The type `long` of a platform on which it has 64 bits. -/
def int64 : IntTy := ⟨true, 64⟩

/-! ### The declared length category of `iota_view` -/

/-- The kinds of type that the template arguments `From` and `To` of `iota_view` are
told apart by: an integral type, `unreachable_sentinel_t`, or any other type. -/
inductive Ty where
  | integral (I : IntTy)
  | unreachable_sentinel_t
  | other
deriving DecidableEq, Repr

/-- The trait `std::is_integral<T>::value`. -/
def Ty.is_integral : Ty → Bool
  | .integral _ => true
  | _ => false

/-- The enumeration `cardinality` restricted to the three values that `iota_view`
passes to `view_facade`. -/
inductive cardinality where
  | infinite
  | finite
  | unknown
deriving DecidableEq, Repr

/-- The second template argument of the base class `view_facade` of
`iota_view<From, To>`:
`same_as<To, unreachable_sentinel_t> ? infinite
   : is_integral<From> && is_integral<To> ? finite : unknown`. -/
def iota_view.cardinality_of (From To : Ty) : cardinality :=
  if To = .unreachable_sentinel_t then .infinite
  else if From.is_integral && To.is_integral then .finite
  else .unknown

/-- The template arguments of the view returned by the one-argument call
`views::iota(value)`: `iota_view<From>`, whose `To` is defaulted to
`unreachable_sentinel_t`. -/
def views.iota_unbounded (From : Ty) : Ty × Ty := (From, .unreachable_sentinel_t)

/-! ### The choice of the difference type -/

/-- The four types that `promote_as_signed_` chooses from. -/
inductive DiffType where
  | int_fast16_t
  | int_fast32_t
  | int_fast64_t
  | diffmax_t
deriving DecidableEq, Repr

/-- The widths in bits, on a given platform, of the types that `promote_as_signed_`
names; they are declared outside `iota.hpp`. -/
structure Platform where
  int_fast16_t : Nat
  int_fast32_t : Nat
  int_fast64_t : Nat
  intmax_t : Nat
  diffmax_t : Nat
deriving DecidableEq, Repr

/-- The guarantees of `<cstdint>`: `int_fastN_t` has at least `N` bits and `intmax_t`
at least 64. -/
def Platform.Conforming (P : Platform) : Prop :=
  16 ≤ P.int_fast16_t ∧ 32 ≤ P.int_fast32_t ∧ 64 ≤ P.int_fast64_t ∧ 64 ≤ P.intmax_t

instance (P : Platform) : Decidable P.Conforming := by
  unfold Platform.Conforming; infer_instance

/-- The width in bits of a difference type on the platform `P`. -/
def DiffType.bits (P : Platform) : DiffType → Nat
  | .int_fast16_t => P.int_fast16_t
  | .int_fast32_t => P.int_fast32_t
  | .int_fast64_t => P.int_fast64_t
  | .diffmax_t => P.diffmax_t

/-- The width that the name of a fixed-width type promises (16, 32, 64); `diffmax_t`
is not a fixed-width type. -/
def DiffType.nominalBits : DiffType → Option Nat
  | .int_fast16_t => some 16
  | .int_fast32_t => some 32
  | .int_fast64_t => some 64
  | .diffmax_t => none

namespace detail

/-- The member `promote_as_signed_<N>::difference_type`: the three
specialisations for `N < 16`, `16 <= N < 32` and `32 <= N < 64`, and the primary
template, whose `static_assert(sizeof(std::intmax_t) * CHAR_BIT >= N)` makes the
instantiation ill-formed (`none`) for a larger `N`. -/
def promote_as_signed_ (P : Platform) (N : Nat) : Option DiffType :=
  if N < 16 then some .int_fast16_t
  else if 16 ≤ N ∧ N < 32 then some .int_fast32_t
  else if 32 ≤ N ∧ N < 64 then some .int_fast64_t
  else if P.intmax_t ≥ N then some .diffmax_t
  else none

end detail

/-- The claim about the choice, in the words of the specification: `T` is the narrowest
of the fixed-width types (16, 32, 64 bits) that is at least `N` bits wide. -/
def NarrowestAtLeast (N : Nat) (T : DiffType) : Prop :=
  ∃ w, T.nominalBits = some w ∧ N ≤ w ∧
    ∀ T' w', DiffType.nominalBits T' = some w' → N ≤ w' → w ≤ w'

/-- The choice that the code makes: `T` is the narrowest of the fixed-width types
(16, 32, 64 bits) that is more than `N` bits wide. -/
def NarrowestAbove (N : Nat) (T : DiffType) : Prop :=
  ∃ w, T.nominalBits = some w ∧ N < w ∧
    ∀ T' w', DiffType.nominalBits T' = some w' → N < w' → w ≤ w'

/-- A platform on which every `int_fastN_t` and `intmax_t` is 64 bits wide. -/
def lp64 : Platform := ⟨64, 64, 64, 64, 65⟩

/-! ### The action `take` -/

namespace actions

/-- Modelled from the spec: `begin(rng)` of a container is not part of `take.hpp`;
iterators into a container are positions, and `begin` is position 0. -/
def begin {α : Type} (_rng : List α) : Nat := 0

/-- Modelled from the spec: `end(rng)` of a container is not part of `take.hpp`;
iterators into a container are positions, and `end` is the position one past the last
element. -/
def end_ {α : Type} (rng : List α) : Nat := rng.length

/-- Modelled from the spec: `ranges::next(it, n, bound)` is not part of `take.hpp`; it
moves `it` forward `n` times but stops at `bound`. -/
def next (it : Nat) (n : Int) (bound : Nat) : Nat :=
  if it + n.toNat ≤ bound then it + n.toNat else bound

/-- Modelled from the spec: `actions::erase(rng, first, last)` is not part of
`take.hpp`; it removes the elements at the positions from `first` up to, not
including, `last`. -/
def erase {α : Type} (rng : List α) (first last : Nat) : List α :=
  rng.take first ++ rng.drop last

/-- The call operator `take_fn::operator()(Rng && rng, range_difference_t<Rng> n)`:
`RANGES_EXPECT(n >= 0); erase(rng, next(begin(rng), n, end(rng)), end(rng));
return rng;`. -/
def take {α : Type} (rng : List α) (n : Int) : Option (List α) :=
  (RANGES_EXPECT (decide (n ≥ 0))).bind fun _ =>
  some (erase rng (next (begin rng) n (end_ rng)) (end_ rng))

end actions

end ranges

/-! ## Arithmetic of the integral types -/

namespace ranges

set_option maxRecDepth 8192

/-- A passed `RANGES_EXPECT` continues, a failed one is the contract violation. -/
theorem RANGES_EXPECT_bind {α : Type} (b : Bool) (f : Unit → Option α) :
    (RANGES_EXPECT b).bind f = if b = true then f () else none := by
  cases b <;> rfl

/-- A passed `RANGES_ENSURE` continues, a failed one is the contract violation. -/
theorem RANGES_ENSURE_bind {α : Type} (b : Bool) (f : Unit → Option α) :
    (RANGES_ENSURE b).bind f = if b = true then f () else none := by
  cases b <;> rfl

/-- The member `read()` with its check written as a conditional. -/
theorem closed_iota_view.cursor.read_eq (c : closed_iota_view.cursor) :
    c.read = if !c.done_ then some c.from_ else none := by
  unfold closed_iota_view.cursor.read
  cases c.done_ <;> rfl

/-- The member `next()` with its check written as a conditional. -/
theorem closed_iota_view.cursor.next_eq (I : IntTy) (c : closed_iota_view.cursor) :
    c.next I =
      if !c.done_ then
        if c.from_ == c.to_ then some { c with done_ := true }
        else some { c with from_ := I.wrap (c.from_ + 1) }
      else none := by
  unfold closed_iota_view.cursor.next
  cases c.done_ <;> rfl

/-- The member `advance(n)` with its check written as a conditional. -/
theorem closed_iota_view.cursor.advance_eq (I : IntTy) (d : Nat) (c : closed_iota_view.cursor)
    (n : Int) :
    c.advance I d n =
      if n > 0 then
        if detail.iota_distance_ I d c.from_ c.to_ ≥ castD d (n - b2i (!c.done_)) then
          some { from_ := detail.iota_advance_ I d c.from_ (castD d (n - b2i
                  (decide (detail.iota_distance_ I d c.from_ c.to_
                    ≤ castD d (n - b2i (!c.done_))))))
                 to_ := c.to_
                 done_ := decide (detail.iota_distance_ I d c.from_ c.to_
                    ≤ castD d (n - b2i (!c.done_))) }
        else none
      else if n < 0 then
        some { from_ := detail.iota_advance_ I d c.from_ (castD d (n + b2i c.done_))
               to_ := c.to_
               done_ := false }
      else some c := by
  unfold closed_iota_view.cursor.advance
  simp only [RANGES_ENSURE_bind, decide_eq_true_eq]

/-- The bounds check of `closed_iota_view` written as a conditional. -/
theorem closed_iota_view.closed_check_bounds_eq (ordered : Bool) (v : closed_iota_view) :
    v.check_bounds_ ordered =
      if ordered then (if v.from_ ≤ v.to_ then some () else none) else some () := by
  unfold closed_iota_view.check_bounds_ RANGES_EXPECT
  simp only [decide_eq_true_eq]

/-- The bounds check of `iota_view` written as a conditional. -/
theorem iota_view.iota_check_bounds_eq (ordered : Bool) (v : iota_view) :
    v.check_bounds_ ordered =
      if ordered then (if v.from_ ≤ v.to_ then some () else none) else some () := by
  unfold iota_view.check_bounds_ RANGES_EXPECT
  simp only [decide_eq_true_eq]

/-- Doubling the power of two below gives the power of two. -/
theorem two_pow_pred {w : Nat} (h : 0 < w) : (2 : Int) ^ w = 2 * 2 ^ (w - 1) := by
  obtain ⟨k, rfl⟩ : ∃ k, w = k + 1 := ⟨w - 1, by omega⟩
  simp [pow_succ]; ring

/-- Powers of two are positive. -/
theorem two_pow_pos (w : Nat) : (0 : Int) < 2 ^ w := by positivity

/-- A type with more bits has at least one more bit: `2 ^ w <= 2 ^ (d - 1)`. -/
theorem two_pow_le_pred {w d : Nat} (h : w < d) : (2 : Int) ^ w ≤ 2 ^ (d - 1) :=
  pow_le_pow_right₀ (by norm_num) (by omega)

/-- Conversion to a type leaves the values of that type unchanged. -/
theorem IntTy.wrap_of_inRange (I : IntTy) (hb : 0 < I.bits) {x : Int} (h : I.InRange x) :
    I.wrap x = x := by
  have h2 := two_pow_pred hb
  have h3 := two_pow_pos (I.bits - 1)
  unfold IntTy.InRange IntTy.minVal IntTy.maxVal at h
  unfold IntTy.wrap
  cases hs : I.isSigned <;> simp only [hs, if_true, if_false, Bool.false_eq_true] at h ⊢
  · exact Int.emod_eq_of_lt (by omega) (by omega)
  · rw [Int.emod_eq_of_lt (by omega) (by omega)]; omega

/-- Conversion to the difference type leaves its values unchanged. -/
theorem castD_of_bounds {d : Nat} (hd : 0 < d) {x : Int}
    (h1 : -(2 ^ (d - 1)) ≤ x) (h2 : x < 2 ^ (d - 1)) : castD d x = x := by
  apply IntTy.wrap_of_inRange (diffTy d) hd
  unfold IntTy.InRange IntTy.minVal IntTy.maxVal diffTy
  simp only [if_true]
  omega

open detail

/-- Bounds on a value of an integral type that hold for both signednesses. -/
theorem IntTy.inRange_abs (I : IntTy) (hb : 0 < I.bits) {x : Int} (h : I.InRange x) :
    -(2 ^ (I.bits - 1)) ≤ x ∧ x < 2 ^ I.bits ∧
      (I.isSigned = false → 0 ≤ x) ∧ (I.isSigned = true → x < 2 ^ (I.bits - 1)) := by
  have h2 := two_pow_pred hb
  have h3 := two_pow_pos (I.bits - 1)
  unfold IntTy.InRange IntTy.minVal IntTy.maxVal at h
  cases hs : I.isSigned <;> simp only [hs, if_true, if_false, Bool.false_eq_true] at h ⊢ <;>
    refine ⟨by omega, by omega, ?_, ?_⟩ <;> intro _ <;> first | omega | contradiction

/-- The largest and the smallest value of a type are `2 ^ bits - 1` apart. -/
theorem IntTy.maxVal_sub_minVal (I : IntTy) (hb : 0 < I.bits) :
    I.maxVal - I.minVal = 2 ^ I.bits - 1 := by
  have h2 := two_pow_pred hb
  unfold IntTy.minVal IntTy.maxVal
  cases hs : I.isSigned <;> simp only [if_true, if_false, Bool.false_eq_true] <;> omega

/-- With a difference type wider than the value type, `iota_distance_` is the exact
difference of its arguments. -/
theorem detail.iota_distance_exact (I : IntTy) (d : Nat) (hb : 0 < I.bits) (hd : I.bits < d)
    {a b : Int} (ha : I.InRange a) (hb' : I.InRange b) :
    iota_distance_ I d a b = b - a := by
  have h2 := two_pow_pred hb
  have h3 := two_pow_pos (I.bits - 1)
  have h4 := two_pow_le_pred hd
  have hd0 : 0 < d := by omega
  obtain ⟨a1, a2, a3, a4⟩ := I.inRange_abs hb ha
  obtain ⟨b1, b2, b3, b4⟩ := I.inRange_abs hb hb'
  unfold iota_distance_
  cases hs : I.isSigned
  · have a5 := a3 hs
    have b5 := b3 hs
    simp only [Bool.false_eq_true, if_false]
    unfold iota_distance_unsigned
    split
    · rw [I.wrap_of_inRange hb (x := a - b), castD_of_bounds hd0 (x := a - b) (by omega) (by omega),
        castD_of_bounds hd0 (by omega) (by omega)]
      · omega
      · unfold IntTy.InRange IntTy.minVal IntTy.maxVal; simp only [hs, Bool.false_eq_true, if_false]; omega
    · rw [I.wrap_of_inRange hb (x := b - a), castD_of_bounds hd0 (by omega) (by omega)]
      unfold IntTy.InRange IntTy.minVal IntTy.maxVal; simp only [hs, Bool.false_eq_true, if_false]; omega
  · have a5 := a4 hs
    have b5 := b4 hs
    simp only [if_true]
    unfold iota_distance_signed
    rw [castD_of_bounds hd0 (x := a) (by omega) (by omega),
      castD_of_bounds hd0 (x := b) (by omega) (by omega),
      castD_of_bounds hd0 (by omega) (by omega)]

/-- When `i + n` is a value of the type, `iota_advance_` computes it exactly. -/
theorem detail.iota_advance_exact (I : IntTy) (d : Nat) (hb : 0 < I.bits) (hd : I.bits < d)
    {i n : Int} (hi : I.InRange i) (hr : I.InRange (i + n)) :
    iota_advance_ I d i n = i + n := by
  have h2 := two_pow_pred hb
  have h3 := two_pow_pos (I.bits - 1)
  have h4 := two_pow_le_pred hd
  have hd0 : 0 < d := by omega
  obtain ⟨a1, a2, a3, a4⟩ := I.inRange_abs hb hi
  obtain ⟨b1, b2, b3, b4⟩ := I.inRange_abs hb hr
  unfold iota_advance_
  cases hs : I.isSigned
  · have a5 := a3 hs
    have b5 := b3 hs
    simp only [Bool.false_eq_true, if_false]
    unfold iota_advance_unsigned
    split
    · rw [I.wrap_of_inRange hb (x := n), I.wrap_of_inRange hb hr]
      unfold IntTy.InRange IntTy.minVal IntTy.maxVal; simp only [hs, Bool.false_eq_true, if_false]; omega
    · rw [castD_of_bounds hd0 (by omega) (by omega), I.wrap_of_inRange hb (x := -n)]
      · rw [show i - -n = i + n by ring]; exact I.wrap_of_inRange hb hr
      · unfold IntTy.InRange IntTy.minVal IntTy.maxVal; simp only [hs, Bool.false_eq_true, if_false]; omega
  · have a5 := a4 hs
    have b5 := b4 hs
    simp only [if_true]
    unfold iota_advance_signed
    rw [castD_of_bounds hd0 (by omega) (by omega), I.wrap_of_inRange hb hr]

namespace closed_iota_view

/-- Two more bits in the difference type: `2 * 2 ^ w <= 2 ^ (d - 1)`. -/
theorem two_pow_le_pred2 {w d : Nat} (h : w + 2 ≤ d) : 2 * (2 : Int) ^ w ≤ 2 ^ (d - 1) := by
  have := two_pow_le_pred (w := w + 1) (d := d) (by omega)
  rw [pow_succ] at this
  omega

/-- A positive `advance(n)` on a live cursor, in exact arithmetic. -/
theorem cursor.advance_pos_live (I : IntTy) (d : Nat) (hb : 0 < I.bits) (hd : I.bits < d)
    (c : cursor) (n : Int) (hf : I.InRange c.from_) (ht : I.InRange c.to_)
    (hdone : c.done_ = false) (hn : 0 < n) (hn2 : n < 2 ^ (d - 1)) :
    c.advance I d n =
      if n - 1 ≤ c.to_ - c.from_ then
        some ⟨c.from_ + n - b2i (decide (c.to_ - c.from_ ≤ n - 1)), c.to_,
          decide (c.to_ - c.from_ ≤ n - 1)⟩
      else none := by
  have h3 := two_pow_pos (d - 1)
  have hd0 : 0 < d := by omega
  obtain ⟨f, t, dn⟩ := c
  simp only at hf ht hdone ⊢
  subst hdone
  have hc1 : castD d (n - 1) = n - 1 := castD_of_bounds hd0 (by omega) (by omega)
  simp only [cursor.advance_eq, hn, if_true, iota_distance_exact I d hb hd hf ht, b2i,
    Bool.not_false, hc1, ge_iff_le]
  by_cases h1 : n - 1 ≤ t - f
  · simp only [h1, if_true]
    by_cases h2 : t - f ≤ n - 1
    · have hr : I.InRange (f + (n - 1)) := by
        have : f + (n - 1) = t := by omega
        rw [this]; exact ht
      simp only [h2, decide_True, if_true, hc1, iota_advance_exact I d hb hd hf hr]
      congr 2; omega
    · have hr : I.InRange (f + n) := by
        unfold IntTy.InRange at hf ht ⊢; omega
      have hc0 : castD d n = n := castD_of_bounds hd0 (by omega) (by omega)
      simp only [h2, decide_False, if_false, Bool.false_eq_true, sub_zero, hc0,
        iota_advance_exact I d hb hd hf hr]
  · simp only [h1, if_false]

/-- A positive `advance(n)` on an exhausted cursor fails its check. -/
theorem cursor.advance_pos_done (I : IntTy) (d : Nat) (hb : 0 < I.bits) (hd : I.bits < d)
    (c : cursor) (n : Int) (hc : c.Valid I)
    (hdone : c.done_ = true) (hn : 0 < n) (hn2 : n < 2 ^ (d - 1)) :
    c.advance I d n = none := by
  have h3 := two_pow_pos (d - 1)
  have hd0 : 0 < d := by omega
  obtain ⟨hf, ht, hle, himp⟩ := hc
  have heq := himp hdone
  obtain ⟨f, t, dn⟩ := c
  simp only at hf ht hdone heq ⊢
  subst hdone
  have hc0 : castD d n = n := castD_of_bounds hd0 (by omega) (by omega)
  simp only [cursor.advance_eq, hn, if_true, iota_distance_exact I d hb hd hf ht, b2i,
    Bool.not_true, Bool.false_eq_true, if_false, sub_zero, hc0, ge_iff_le]
  rw [if_neg (by omega)]

/-- A negative `advance(n)`, in exact arithmetic. -/
theorem cursor.advance_neg (I : IntTy) (d : Nat) (hb : 0 < I.bits) (hd : I.bits < d)
    (c : cursor) (n : Int) (hf : I.InRange c.from_)
    (hn : n < 0) (hn2 : -(2 ^ (d - 1)) ≤ n) (hr : I.InRange (c.from_ + (n + b2i c.done_))) :
    c.advance I d n = some ⟨c.from_ + (n + b2i c.done_), c.to_, false⟩ := by
  have h3 := two_pow_pos (d - 1)
  have hd0 : 0 < d := by omega
  have hb2 : 0 ≤ b2i c.done_ ∧ b2i c.done_ ≤ 1 := by unfold b2i; split <;> omega
  have hc0 : castD d (n + b2i c.done_) = n + b2i c.done_ :=
    castD_of_bounds hd0 (by omega) (by omega)
  have h1 : ¬ n > 0 := by omega
  simp only [cursor.advance_eq, h1, if_false, hn, if_true, hc0, iota_advance_exact I d hb hd hf hr]

/-- With two more bits in the difference type, `distance_to` is exact. -/
theorem cursor.distance_to_exact (I : IntTy) (d : Nat) (hb : 0 < I.bits) (hd : I.bits + 2 ≤ d)
    (c t : cursor) (hf : I.InRange c.from_) (hg : I.InRange t.from_) :
    c.distance_to I d t = t.from_ - c.from_ + (b2i t.done_ - b2i c.done_) := by
  have h2 := two_pow_pred hb
  have h3 := two_pow_pos (I.bits - 1)
  have h4 := two_pow_le_pred2 hd
  have hd0 : 0 < d := by omega
  obtain ⟨a1, a2, -, -⟩ := I.inRange_abs hb hf
  obtain ⟨b1, b2, -, -⟩ := I.inRange_abs hb hg
  have hb2 : 0 ≤ b2i c.done_ ∧ b2i c.done_ ≤ 1 := by unfold b2i; split <;> omega
  have hb3 : 0 ≤ b2i t.done_ ∧ b2i t.done_ ≤ 1 := by unfold b2i; split <;> omega
  unfold cursor.distance_to
  rw [iota_distance_exact I d hb (by omega) hf hg,
    castD_of_bounds hd0 (x := t.from_ - c.from_) (by omega) (by omega),
    castD_of_bounds hd0 (x := b2i t.done_ - b2i c.done_) (by omega) (by omega),
    castD_of_bounds hd0 (by omega) (by omega)]

/-- The call `advance(0)` changes nothing. -/
theorem cursor.advance_zero (I : IntTy) (d : Nat) (c : cursor) : c.advance I d 0 = some c := by
  simp [cursor.advance]

/-- Every cursor is `equal` to itself. -/
theorem cursor.equal_self (c : cursor) : c.equal c = true := by
  simp [cursor.equal]

/-- The bounds of the values of the difference type. -/
theorem diffTy_inRange {d : Nat} {n : Int} (h : (diffTy d).InRange n) :
    -(2 ^ (d - 1)) ≤ n ∧ n < 2 ^ (d - 1) := by
  unfold IntTy.InRange IntTy.minVal IntTy.maxVal diffTy at h
  simp only [if_true] at h
  omega

/-- An integer within the bounds of the difference type is one of its values. -/
theorem diffTy_inRange_of_bounds {d : Nat} {n : Int} (h1 : -(2 ^ (d - 1)) ≤ n)
    (h2 : n < 2 ^ (d - 1)) : (diffTy d).InRange n := by
  unfold IntTy.InRange IntTy.minVal IntTy.maxVal diffTy
  simp only [if_true]
  omega

/-- The position difference of two cursors, the number that `distance_to` is to
compute. -/
theorem cursor.distance_to_of_representable (I : IntTy) (d : Nat) (hb : 0 < I.bits)
    (hd : I.bits < d) (c t : cursor) (hf : I.InRange c.from_) (hg : I.InRange t.from_)
    (hrep : (diffTy d).InRange (t.from_ - c.from_ + (b2i t.done_ - b2i c.done_))) :
    c.distance_to I d t = t.from_ - c.from_ + (b2i t.done_ - b2i c.done_) := by
  have h2 := two_pow_pred hb
  have h3 := two_pow_pos (I.bits - 1)
  have h4 := two_pow_le_pred hd
  have hd0 : 0 < d := by omega
  obtain ⟨r1, r2⟩ := diffTy_inRange hrep
  obtain ⟨a1, a2, -, -⟩ := I.inRange_abs hb hf
  obtain ⟨b1, b2, -, -⟩ := I.inRange_abs hb hg
  have hspan : t.from_ - c.from_ < 2 ^ I.bits ∧ -(2 ^ I.bits) < t.from_ - c.from_ := by
    obtain ⟨-, -, a3, a4⟩ := I.inRange_abs hb hf
    obtain ⟨-, -, b3, b4⟩ := I.inRange_abs hb hg
    cases hs : I.isSigned
    · have := a3 hs
      have := b3 hs
      omega
    · have := a4 hs
      have := b4 hs
      omega
  have hb2 : 0 ≤ b2i c.done_ ∧ b2i c.done_ ≤ 1 := by unfold b2i; split <;> omega
  have hb3 : 0 ≤ b2i t.done_ ∧ b2i t.done_ ≤ 1 := by unfold b2i; split <;> omega
  unfold cursor.distance_to
  rw [iota_distance_exact I d hb hd hf hg,
    castD_of_bounds hd0 (x := t.from_ - c.from_) (by omega) (by omega),
    castD_of_bounds hd0 (x := b2i t.done_ - b2i c.done_) (by omega) (by omega),
    castD_of_bounds hd0 r1 r2]

/-- With two more bits in the difference type than in the value type, every position
difference of two cursors is a value of the difference type. -/
theorem cursor.distance_representable (I : IntTy) (d : Nat) (hb : 0 < I.bits)
    (hd : I.bits + 2 ≤ d) (c t : cursor) (hf : I.InRange c.from_) (hg : I.InRange t.from_) :
    (diffTy d).InRange (t.from_ - c.from_ + (b2i t.done_ - b2i c.done_)) := by
  have h2 := two_pow_pred hb
  have h3 := two_pow_pos (I.bits - 1)
  have h4 := two_pow_le_pred2 hd
  obtain ⟨a1, a2, -, -⟩ := I.inRange_abs hb hf
  obtain ⟨b1, b2, -, -⟩ := I.inRange_abs hb hg
  have hb2 : 0 ≤ b2i c.done_ ∧ b2i c.done_ ≤ 1 := by unfold b2i; split <;> omega
  have hb3 : 0 ≤ b2i t.done_ ∧ b2i t.done_ ≤ 1 := by unfold b2i; split <;> omega
  exact diffTy_inRange_of_bounds (by omega) (by omega)

/-- From a cursor that satisfies the invariant, `k` successive `next()` calls all succeed
exactly when `k` is at most the distance to the bound, plus one for a live cursor. -/
theorem cursor.nextN_isSome_iff (I : IntTy) (hb : 0 < I.bits) (k : Nat) :
    ∀ c : cursor, c.Valid I →
      ((cursor.nextN I k c).isSome = true ↔ (k : Int) ≤ c.to_ - c.from_ + b2i (!c.done_)) := by
  induction k with
  | zero =>
    intro c hc
    obtain ⟨-, -, hle, -⟩ := hc
    have hb2 : 0 ≤ b2i (!c.done_) := by unfold b2i; split <;> omega
    simp only [cursor.nextN, Option.isSome_some, true_iff]
    push_cast
    omega
  | succ k ih =>
    intro c hc
    obtain ⟨hf, ht, hle, hdn⟩ := hc
    obtain ⟨f, T, dn⟩ := c
    simp only at hf ht hle hdn
    cases dn
    · by_cases hfT : f = T
      · subst hfT
        have hv : (⟨f, f, true⟩ : cursor).Valid I := ⟨hf, hf, le_refl _, fun _ => rfl⟩
        have := ih ⟨f, f, true⟩ hv
        simp only [b2i, Bool.not_true, Bool.false_eq_true, if_false] at this
        simp only [cursor.nextN, cursor.next_eq, Bool.not_false, if_true, beq_self_eq_true,
          Option.some_bind, this, b2i]
        push_cast
        omega
      · have hlt : f < T := lt_of_le_of_ne hle hfT
        have hr : I.InRange (f + 1) := by
          unfold IntTy.InRange at hf ht ⊢; omega
        have hv : (⟨f + 1, T, false⟩ : cursor).Valid I :=
          ⟨hr, ht, by simp only; omega, by simp⟩
        have := ih ⟨f + 1, T, false⟩ hv
        simp only [b2i, Bool.not_false, if_true] at this
        have hne : (f == T) = false := by simpa using hfT
        simp only [cursor.nextN, cursor.next_eq, Bool.not_false, if_true, hne, Bool.false_eq_true,
          if_false, Option.some_bind, I.wrap_of_inRange hb hr, this, b2i]
        push_cast
        omega
    · have hfT := hdn rfl
      subst hfT
      simp only [cursor.nextN, cursor.next_eq, Bool.not_true, Bool.false_eq_true, if_false,
        Option.none_bind, Option.isSome_none, b2i, false_iff]
      push_cast
      omega

end closed_iota_view

/-! ## Lists of consecutive integers and the traversal loops -/

/-- The list from `a` up to `a` is empty. -/
theorem intsUpTo_self (a : Int) : intsUpTo a a = [] := by
  simp [intsUpTo]

/-- The list from `a` up to a larger `b` starts with `a`. -/
theorem intsUpTo_cons {a b : Int} (h : a < b) : intsUpTo a b = a :: intsUpTo (a + 1) b := by
  unfold intsUpTo
  obtain ⟨k, hk⟩ : ∃ k : Nat, (b - a).toNat = k + 1 := ⟨(b - a).toNat - 1, by omega⟩
  have hk' : (b - (a + 1)).toNat = k := by omega
  rw [hk, hk', List.range_succ_eq_map]
  simp only [List.map_cons, List.map_map, Nat.cast_zero, add_zero, List.cons.injEq, true_and]
  apply List.map_congr_left
  intro x _
  show a + ((x + 1 : Nat) : Int) = a + 1 + (x : Int)
  push_cast
  ring

/-- The list from `a` up to `b` has `b - a` elements (none when `b < a`). -/
theorem intsUpTo_length (a b : Int) : (intsUpTo a b).length = (b - a).toNat := by
  unfold intsUpTo
  rw [List.length_map, List.length_range]

/-- The element at position `k` of the list from `a` up to `b` is `a + k`. -/
theorem intsUpTo_getElem? (a b : Int) (k : Nat) (hk : (k : Int) < b - a) :
    (intsUpTo a b)[k]? = some (a + k) := by
  have : k < (b - a).toNat := by omega
  unfold intsUpTo
  rw [List.getElem?_map, List.getElem?_range this]
  rfl

/-- The last element of the list from `a` up to a larger `b` is `b - 1`. -/
theorem intsUpTo_getLast? {a b : Int} (h : a < b) : (intsUpTo a b).getLast? = some (b - 1) := by
  rw [List.getLast?_eq_getElem?, intsUpTo_length]
  have h1 : (((b - a).toNat - 1 : Nat) : Int) < b - a := by omega
  rw [intsUpTo_getElem? a b _ h1]
  congr 1
  omega

/-- The traversal loop of `iota_view` from `a` to a bound `b >= a` reads `a, ..., b - 1`. -/
theorem iota_view.iota_traverse_spec (I : IntTy) (hb : 0 < I.bits) (b : Int) (hb' : I.InRange b)
    (fuel : Nat) : ∀ a : Int, I.InRange a → a ≤ b → (b - a).toNat ≤ fuel →
      iota_view.traverse I fuel ⟨a⟩ ⟨b⟩ = .finished (intsUpTo a b) := by
  induction fuel with
  | zero =>
    intro a _ hab hf
    have : a = b := by omega
    subst this
    simp [iota_view.traverse, iota_view.cursor.equal, intsUpTo_self]
  | succ fuel ih =>
    intro a ha hab hf
    rcases eq_or_lt_of_le hab with h | h
    · subst h
      simp [iota_view.traverse, iota_view.cursor.equal, intsUpTo_self]
    · have hne : (b == a) = false := by
        simp only [beq_eq_false_iff_ne, ne_eq]; omega
      have hr : I.InRange (a + 1) := by
        unfold IntTy.InRange at ha hb' ⊢; omega
      simp only [iota_view.traverse, iota_view.cursor.equal, hne, Bool.false_eq_true, if_false,
        iota_view.cursor.next, iota_view.cursor.read, I.wrap_of_inRange hb hr]
      rw [ih (a + 1) hr (by omega) (by omega), intsUpTo_cons h]
      rfl

/-- The traversal loop of `closed_iota_view` from the live cursor at `a` to the exhausted
cursor at `b >= a` reads `a, ..., b`. -/
theorem closed_iota_view.closed_traverse_spec (I : IntTy) (hb : 0 < I.bits) (b : Int)
    (hb' : I.InRange b) (fuel : Nat) : ∀ a : Int, I.InRange a → a ≤ b →
      (b - a).toNat + 1 ≤ fuel →
      closed_iota_view.traverse I fuel ⟨a, b, false⟩ ⟨b, b, true⟩
        = .finished (intsUpTo a (b + 1)) := by
  induction fuel with
  | zero =>
    intro a _ _ hf
    omega
  | succ fuel ih =>
    intro a ha hab hf
    rcases eq_or_lt_of_le hab with h | h
    · subst h
      have h1 : intsUpTo a (a + 1) = [a] := by
        rw [intsUpTo_cons (by omega), intsUpTo_self]
      cases fuel <;>
        simp [closed_iota_view.traverse, closed_iota_view.cursor.equal,
          closed_iota_view.cursor.read_eq, closed_iota_view.cursor.next_eq, h1, Traversal.cons]
    · have hne : (a == b) = false := by
        simp only [beq_eq_false_iff_ne, ne_eq]; omega
      have hr : I.InRange (a + 1) := by
        unfold IntTy.InRange at ha hb' ⊢; omega
      simp only [closed_iota_view.traverse, closed_iota_view.cursor.equal, Bool.and_false,
        Bool.false_eq_true, if_false, closed_iota_view.cursor.read_eq, Bool.not_false, if_true,
        closed_iota_view.cursor.next_eq, hne, I.wrap_of_inRange hb hr]
      have hQ : (true == false) = false := rfl
      simp only [hQ, Bool.and_false, Bool.false_eq_true, if_false]
      rw [ih (a + 1) hr (by omega) (by omega), intsUpTo_cons (show a < b + 1 by omega)]
      rfl

/-! ## Claims: traversal -/

/-- Claim C1: for integral `a <= b` of one type, `views::ints(a, b)` and
`views::iota(a, b)` construct the view, and its traversal (from `begin_cursor()`,
`read()` then `next()` until the cursor equals `end_cursor()`) terminates and produces
exactly `[a, a + 1, ..., b - 1]`: the element at position `k` is `a + k`, the length is
`iota_distance_(a, b) = b - a`, the list is empty when `a = b`, and otherwise its last
element is `b - 1`. -/
theorem C1_iota_traversal (I : IntTy) (d : Nat) (hb : 0 < I.bits) (hd : I.bits < d)
    (a b : Int) (ha : I.InRange a) (hb' : I.InRange b) (hab : a ≤ b) :
    views.ints a b = some ⟨a, b⟩ ∧ views.iota a b = some ⟨a, b⟩ ∧
      (∀ fuel, (b - a).toNat ≤ fuel →
        iota_view.toList I fuel ⟨a, b⟩ = .finished (intsUpTo a b)) ∧
      (∀ k : Nat, (k : Int) < b - a → (intsUpTo a b)[k]? = some (a + k)) ∧
      ((intsUpTo a b).length : Int) = iota_distance_ I d a b ∧
      iota_distance_ I d a b = b - a ∧
      (a = b → intsUpTo a b = []) ∧
      (a < b → (intsUpTo a b).getLast? = some (b - 1)) := by
  have hmk : iota_view.mk? true a b = some ⟨a, b⟩ := by
    simp [iota_view.mk?, iota_view.iota_check_bounds_eq, hab]
  refine ⟨hmk, hmk, ?_, ?_, ?_, iota_distance_exact I d hb hd ha hb', ?_, ?_⟩
  · intro fuel hf
    exact iota_view.iota_traverse_spec I hb b hb' fuel a ha hab hf
  · intro k hk
    exact intsUpTo_getElem? a b k hk
  · rw [iota_distance_exact I d hb hd ha hb', intsUpTo_length]
    omega
  · intro h
    rw [h, intsUpTo_self]
  · intro h
    exact intsUpTo_getLast? h

/-- Witness of C1 on `int` with a 64-bit difference type: `ints(1, 20)` gives the 19
values 1 to 19, of which those before the first one not below 18 are 17 values ending in
17; `iota(1, 5)` gives `[1, 2, 3, 4]`. -/
theorem C1_iota_traversal_witness :
    (0 < int32.bits ∧ int32.bits < 64 ∧ int32.InRange 1 ∧ int32.InRange 20 ∧ (1 : Int) ≤ 20) ∧
    iota_view.toList int32 19 ⟨1, 20⟩ = .finished (intsUpTo 1 20) ∧
    intsUpTo 1 20 = [1, 2, 3, 4, 5, 6, 7, 8, 9, 10, 11, 12, 13, 14, 15, 16, 17, 18, 19] ∧
    ((intsUpTo 1 20).takeWhile fun x => decide (x < 18)).length = 17 ∧
    ((intsUpTo 1 20).takeWhile fun x => decide (x < 18)).getLast? = some 17 ∧
    (views.iota 1 5).map (iota_view.toList int32 4) = some (.finished [1, 2, 3, 4]) :=
  ⟨by decide,
    (C1_iota_traversal int32 64 (by decide) (by decide) 1 20 (by decide) (by decide)
      (by decide)).2.2.1 19 (by decide),
    by decide, by decide, by decide, by decide⟩

/-- Claim C2: for `a <= b` of one integral type, `views::closed_iota(a, b)` constructs
the view, and its traversal (from `begin_cursor()`, `read()` then `next()` until the
cursor equals `end_cursor()`) terminates without a contract violation and produces
exactly `[a, a + 1, ..., b]`: the element at position `k` is `a + k`, the length is
`iota_distance_(a, b) + 1`, at least 1, and the last element is `b`. -/
theorem C2_closed_iota_traversal (I : IntTy) (d : Nat) (hb : 0 < I.bits) (hd : I.bits < d)
    (a b : Int) (ha : I.InRange a) (hb' : I.InRange b) (hab : a ≤ b) :
    views.closed_iota a b = some ⟨a, b⟩ ∧
      (∀ fuel, (b - a).toNat + 1 ≤ fuel →
        closed_iota_view.toList I fuel ⟨a, b⟩ = .finished (intsUpTo a (b + 1))) ∧
      (∀ k : Nat, (k : Int) ≤ b - a → (intsUpTo a (b + 1))[k]? = some (a + k)) ∧
      ((intsUpTo a (b + 1)).length : Int) = iota_distance_ I d a b + 1 ∧
      1 ≤ (intsUpTo a (b + 1)).length ∧
      (intsUpTo a (b + 1)).getLast? = some b := by
  have hmk : closed_iota_view.mk? true a b = some ⟨a, b⟩ := by
    simp [closed_iota_view.mk?, closed_iota_view.closed_check_bounds_eq, hab]
  refine ⟨hmk, ?_, ?_, ?_, ?_, ?_⟩
  · intro fuel hf
    exact closed_iota_view.closed_traverse_spec I hb b hb' fuel a ha hab hf
  · intro k hk
    exact intsUpTo_getElem? a (b + 1) k (by omega)
  · rw [iota_distance_exact I d hb hd ha hb', intsUpTo_length]
    omega
  · rw [intsUpTo_length]
    omega
  · rw [intsUpTo_getLast? (show a < b + 1 by omega)]
    congr 1
    omega

/-- Witness of C2 on `int` with a 64-bit difference type: `closed_iota(1, 5)` gives
`[1, 2, 3, 4, 5]`. -/
theorem C2_closed_iota_traversal_witness :
    (0 < int32.bits ∧ int32.bits < 64 ∧ int32.InRange 1 ∧ int32.InRange 5 ∧ (1 : Int) ≤ 5) ∧
    closed_iota_view.toList int32 5 ⟨1, 5⟩ = .finished (intsUpTo 1 (5 + 1)) ∧
    intsUpTo 1 (5 + 1) = [1, 2, 3, 4, 5] ∧
    (views.closed_iota 1 5).map (closed_iota_view.toList int32 5)
      = some (.finished [1, 2, 3, 4, 5]) :=
  ⟨by decide,
    (C2_closed_iota_traversal int32 64 (by decide) (by decide) 1 5 (by decide) (by decide)
      (by decide)).2.1 5 (by decide),
    by decide, by decide⟩

/-! ## Claims: round trips of `advance` and `distance_to` -/

/-- Claim C3 fails as stated: for `long` (64 bits), whose difference type `diffmax_t` has
65 bits, the distance from the live cursor at the smallest value to the exhausted cursor
at the largest value, `2 ^ 64`, is not a value of the difference type; `distance_to`
returns `-2 ^ 64` and `advance` of it leaves the cursor where it was. -/
theorem C3_round_trip_counterexample :
    promote_as_signed_ lp64 64 = some .diffmax_t ∧ DiffType.bits lp64 .diffmax_t = 65 ∧
      (⟨-9223372036854775808, 9223372036854775807, false⟩ :
        closed_iota_view.cursor).Valid int64 ∧
      (⟨9223372036854775807, 9223372036854775807, true⟩ :
        closed_iota_view.cursor).Valid int64 ∧
      (⟨-9223372036854775808, 9223372036854775807, false⟩ :
          closed_iota_view.cursor).distance_to int64 65
          ⟨9223372036854775807, 9223372036854775807, true⟩ = -18446744073709551616 ∧
      (⟨-9223372036854775808, 9223372036854775807, false⟩ :
          closed_iota_view.cursor).advance int64 65
          ((⟨-9223372036854775808, 9223372036854775807, false⟩ :
            closed_iota_view.cursor).distance_to int64 65
            ⟨9223372036854775807, 9223372036854775807, true⟩)
        = some ⟨-9223372036854775808, 9223372036854775807, false⟩ ∧
      (⟨-9223372036854775808, 9223372036854775807, false⟩ :
          closed_iota_view.cursor).advance int64 65
          ((⟨-9223372036854775808, 9223372036854775807, false⟩ :
            closed_iota_view.cursor).distance_to int64 65
            ⟨9223372036854775807, 9223372036854775807, true⟩)
        ≠ some ⟨9223372036854775807, 9223372036854775807, true⟩ := by
  decide

/-- Claim C3, amended: on the cursor of a closed sequence, for two cursors `c` and `t` of
the same sequence that satisfy the state invariant and whose distance
`t.from_ - c.from_ + (t.done_ - c.done_)` is a value of the difference type,
`c.advance(c.distance_to(t))` passes its `RANGES_ENSURE` check and leaves `c` equal to
`t` (same `from_`, same `done_`), for a positive, a negative and a zero distance and also
when `c` or `t` is the exhausted cursor. The distance is a value of the difference type
for every pair when that type has at least two bits more than the value type, and for
every pair but the one from the live cursor at the smallest value to the exhausted cursor
at the largest value when it has at least one bit more. -/
theorem C3_closed_advance_distance_round_trip (I : IntTy) (d : Nat) (hb : 0 < I.bits)
    (hd : I.bits < d) (c t : closed_iota_view.cursor) (hc : c.Valid I) (ht : t.Valid I)
    (hto : c.to_ = t.to_) :
    ((diffTy d).InRange (t.from_ - c.from_ + (b2i t.done_ - b2i c.done_)) →
        c.advance I d (c.distance_to I d t) = some t ∧
        ∃ c', c.advance I d (c.distance_to I d t) = some c' ∧ c'.equal t = true ∧
          c'.from_ = t.from_ ∧ c'.done_ = t.done_) ∧
      (I.bits + 2 ≤ d →
        (diffTy d).InRange (t.from_ - c.from_ + (b2i t.done_ - b2i c.done_))) ∧
      (¬ (c.done_ = false ∧ c.from_ = I.minVal ∧ t.done_ = true ∧ t.from_ = I.maxVal) →
        (diffTy d).InRange (t.from_ - c.from_ + (b2i t.done_ - b2i c.done_))) := by
  have h2 := two_pow_pred hb
  have h3 := two_pow_pos (I.bits - 1)
  have h4 := two_pow_le_pred hd
  obtain ⟨hcf, hct, hcle, hcd⟩ := hc
  obtain ⟨htf, htt, htle, htd⟩ := ht
  refine ⟨?_, fun hd2 => closed_iota_view.cursor.distance_representable I d hb hd2 c t hcf htf,
    ?_⟩
  · intro hrep
    suffices h : c.advance I d (c.distance_to I d t) = some t from
      ⟨h, t, h, closed_iota_view.cursor.equal_self t, rfl, rfl⟩
    obtain ⟨r1, r2⟩ := closed_iota_view.diffTy_inRange hrep
    rw [closed_iota_view.cursor.distance_to_of_representable I d hb hd c t hcf htf hrep]
    obtain ⟨a1, a2, -, -⟩ := I.inRange_abs hb hcf
    obtain ⟨b1, b2, -, -⟩ := I.inRange_abs hb htf
    obtain ⟨f, T, dc⟩ := c
    obtain ⟨g, T', dt⟩ := t
    simp only at hto hcf hct hcle hcd htf htt htle htd a1 a2 b1 b2 r1 r2 ⊢
    subst hto
    cases dc <;> cases dt <;>
      simp only [b2i, if_true, if_false, Bool.false_eq_true, sub_zero, add_zero, sub_self,
        zero_sub, forall_const, false_implies] at hcd htd r1 r2 ⊢
    · -- both live
      rcases lt_trichotomy (g - f) 0 with hn | hn | hn
      · rw [closed_iota_view.cursor.advance_neg I d hb hd _ _ hcf hn (by omega)
          (by simpa [b2i] using htf)]
        simp [b2i]
      · rw [hn, closed_iota_view.cursor.advance_zero]
        have : g = f := by omega
        rw [this]
      · rw [closed_iota_view.cursor.advance_pos_live I d hb hd _ _ hcf hct rfl hn (by omega)]
        simp only
        rw [if_pos (by omega)]
        have : ¬ (T - f ≤ g - f - 1) := by omega
        simp [this, b2i]
    · -- `c` live, `t` exhausted
      subst htd
      rw [closed_iota_view.cursor.advance_pos_live I d hb hd _ _ hcf hct rfl (by omega)
        (by omega)]
      simp only
      rw [if_pos (by omega)]
      have : (g - f ≤ g - f + 1 - 1) := by omega
      simp only [this, decide_True, b2i, if_true]
      congr 2
      omega
    · -- `c` exhausted, `t` live
      subst hcd
      rcases eq_or_lt_of_le htle with hn | hn
      · subst hn
        rw [closed_iota_view.cursor.advance_neg I d hb hd _ _ hcf (by omega) (by omega)
          (by simpa [b2i] using htf)]
        simp [b2i]
      · rw [closed_iota_view.cursor.advance_neg I d hb hd _ _ hcf (by omega) (by omega)
          (by simp only [b2i, if_true]; rw [show f + (g - f + -1 + 1) = g by ring]; exact htf)]
        simp [b2i]
    · -- both exhausted
      subst hcd
      subst htd
      simp [closed_iota_view.cursor.advance_zero]
  · intro hex
    have hspan := I.maxVal_sub_minVal hb
    have hf1 := hcf.1
    have hf2 := hcf.2
    have hg1 := htf.1
    have hg2 := htf.2
    have hb2 : b2i c.done_ = 0 ∨ b2i c.done_ = 1 := by unfold b2i; split <;> simp
    have hb3 : b2i t.done_ = 0 ∨ b2i t.done_ = 1 := by unfold b2i; split <;> simp
    apply closed_iota_view.diffTy_inRange_of_bounds
    · omega
    · by_contra hcon
      apply hex
      have hc0 : b2i c.done_ = 0 := by omega
      have ht1 : b2i t.done_ = 1 := by omega
      refine ⟨?_, by omega, ?_, by omega⟩
      · cases hcd' : c.done_
        · rfl
        · simp [b2i, hcd'] at hc0
      · cases htd' : t.done_
        · simp [b2i, htd'] at ht1
        · rfl

/-- Witness of the amended C3 on `long` with the 65-bit `diffmax_t`: from the begin
cursor of the closed sequence over all values to the live cursor at the largest value,
a distance of `2 ^ 64 - 1`. -/
theorem C3_closed_advance_distance_round_trip_witness :
    (0 < int64.bits ∧ int64.bits < 65 ∧
      (⟨-9223372036854775808, 9223372036854775807, false⟩ :
        closed_iota_view.cursor).Valid int64 ∧
      (⟨9223372036854775807, 9223372036854775807, false⟩ :
        closed_iota_view.cursor).Valid int64 ∧
      (diffTy 65).InRange ((9223372036854775807 : Int) - -9223372036854775808
        + (b2i false - b2i false))) ∧
    (⟨-9223372036854775808, 9223372036854775807, false⟩ :
        closed_iota_view.cursor).advance int64 65
        ((⟨-9223372036854775808, 9223372036854775807, false⟩ :
          closed_iota_view.cursor).distance_to int64 65
          ⟨9223372036854775807, 9223372036854775807, false⟩)
      = some ⟨9223372036854775807, 9223372036854775807, false⟩ :=
  ⟨by decide,
    ((C3_closed_advance_distance_round_trip int64 65 (by decide) (by decide)
      ⟨-9223372036854775808, 9223372036854775807, false⟩
      ⟨9223372036854775807, 9223372036854775807, false⟩ (by decide) (by decide) rfl).1
      (by decide)).1⟩

/-- Claim C4: on an integral type whose difference type is wider than the type itself,
`iota_advance_(a, iota_distance_(a, b))` leaves `a` equal to `b` for every two values
(signed or unsigned, `a <= b` or `a > b`); hence on cursors of `iota_view`,
`c.advance(c.distance_to(t))` makes `c` equal to `t`. -/
theorem C4_iota_advance_distance_round_trip (I : IntTy) (d : Nat) (hb : 0 < I.bits)
    (hd : I.bits < d) (a b : Int) (ha : I.InRange a) (hb' : I.InRange b) :
    iota_advance_ I d a (iota_distance_ I d a b) = b ∧
      (⟨a⟩ : iota_view.cursor).advance I d ((⟨a⟩ : iota_view.cursor).distance_to I d ⟨b⟩)
        = ⟨b⟩ ∧
      ((⟨a⟩ : iota_view.cursor).advance I d
        ((⟨a⟩ : iota_view.cursor).distance_to I d ⟨b⟩)).equal ⟨b⟩ = true := by
  have h : iota_advance_ I d a (iota_distance_ I d a b) = b := by
    rw [iota_distance_exact I d hb hd ha hb',
      iota_advance_exact I d hb hd ha (by rw [show a + (b - a) = b by ring]; exact hb')]
    ring
  refine ⟨h, ?_, ?_⟩ <;>
    simp [iota_view.cursor.advance, iota_view.cursor.distance_to, iota_view.cursor.equal, h]

/-- Witness of C4 on `unsigned int` with a 64-bit difference type, backwards from 7 to
2. -/
theorem C4_iota_advance_distance_round_trip_witness :
    (0 < uint32.bits ∧ uint32.bits < 64 ∧ uint32.InRange 7 ∧ uint32.InRange 2) ∧
    (iota_advance_ uint32 64 7 (iota_distance_ uint32 64 7 2) = 2 ∧
      (⟨7⟩ : iota_view.cursor).advance uint32 64
        ((⟨7⟩ : iota_view.cursor).distance_to uint32 64 ⟨2⟩) = ⟨2⟩ ∧
      ((⟨7⟩ : iota_view.cursor).advance uint32 64
        ((⟨7⟩ : iota_view.cursor).distance_to uint32 64 ⟨2⟩)).equal ⟨2⟩ = true) :=
  ⟨by decide,
    C4_iota_advance_distance_round_trip uint32 64 (by decide) (by decide) 7 2 (by decide)
      (by decide)⟩

/-! ## Claims: the exhausted position and the checks -/

/-- Claim C5 fails as stated: for the closed sequence over all values of `long`
(64 bits, difference type `diffmax_t` of 65 bits) the number `iota_distance_(a, b) + 1`
is `2 ^ 64`, which is not a value of the difference type; formed in the difference type
it is `-2 ^ 64`, and `advance` of it leaves the begin cursor where it was instead of
giving the end cursor. -/
theorem C5_exhaustion_absorption_counterexample :
    promote_as_signed_ lp64 64 = some .diffmax_t ∧ DiffType.bits lp64 .diffmax_t = 65 ∧
      int64.InRange (-9223372036854775808) ∧ int64.InRange 9223372036854775807 ∧
      iota_distance_ int64 65 (-9223372036854775808) 9223372036854775807 + 1
        = 18446744073709551616 ∧
      ¬ (diffTy 65).InRange
        (iota_distance_ int64 65 (-9223372036854775808) 9223372036854775807 + 1) ∧
      castD 65 (iota_distance_ int64 65 (-9223372036854775808) 9223372036854775807 + 1)
        = -18446744073709551616 ∧
      (⟨-9223372036854775808, 9223372036854775807⟩ : closed_iota_view).begin_cursor.advance
          int64 65
          (castD 65 (iota_distance_ int64 65 (-9223372036854775808) 9223372036854775807 + 1))
        = some (⟨-9223372036854775808, 9223372036854775807⟩ : closed_iota_view).begin_cursor ∧
      (⟨-9223372036854775808, 9223372036854775807⟩ : closed_iota_view).begin_cursor.advance
          int64 65
          (castD 65 (iota_distance_ int64 65 (-9223372036854775808) 9223372036854775807 + 1))
        ≠ some (⟨-9223372036854775808, 9223372036854775807⟩ : closed_iota_view).end_cursor := by
  decide

/-- Claim C5, amended: for a closed sequence `[a, b]` with `a <= b` and
`n = iota_distance_(a, b)`, when `n + 1` is a value of the difference type, `advance(n + 1)`
on the begin cursor succeeds and gives the end cursor `(b, b, done)`; `advance(-1)` on
that end cursor gives `(b, b, live)`, whose `read()` is `b`; and `advance(n)` on the begin
cursor gives `(b, b, live)`, not the exhausted cursor. The number `n + 1` is a value of
the difference type for every sequence when that type has at least two bits more than the
value type, and for every sequence but the one over all values of the type when it has
at least one bit more. -/
theorem C5_exhaustion_absorption (I : IntTy) (d : Nat) (hb : 0 < I.bits)
    (hd : I.bits < d) (a b : Int) (ha : I.InRange a) (hb' : I.InRange b) (hab : a ≤ b) :
    ((diffTy d).InRange (iota_distance_ I d a b + 1) →
        (⟨a, b⟩ : closed_iota_view).begin_cursor.advance I d (iota_distance_ I d a b + 1)
          = some (⟨a, b⟩ : closed_iota_view).end_cursor) ∧
      (⟨a, b⟩ : closed_iota_view).end_cursor = ⟨b, b, true⟩ ∧
      (⟨a, b⟩ : closed_iota_view).end_cursor.advance I d (-1) = some ⟨b, b, false⟩ ∧
      (⟨b, b, false⟩ : closed_iota_view.cursor).read = some b ∧
      (⟨a, b⟩ : closed_iota_view).begin_cursor.advance I d (iota_distance_ I d a b)
        = some ⟨b, b, false⟩ ∧
      (I.bits + 2 ≤ d → (diffTy d).InRange (iota_distance_ I d a b + 1)) ∧
      (¬ (a = I.minVal ∧ b = I.maxVal) →
        (diffTy d).InRange (iota_distance_ I d a b + 1)) := by
  have h2 := two_pow_pred hb
  have h3 := two_pow_pos (I.bits - 1)
  have h4 := two_pow_le_pred hd
  have hspan := I.maxVal_sub_minVal hb
  have ha1 := ha.1
  have hb2 := hb'.2
  obtain ⟨a1, a2, -, -⟩ := I.inRange_abs hb ha
  obtain ⟨b1, b2, -, -⟩ := I.inRange_abs hb hb'
  rw [iota_distance_exact I d hb hd ha hb']
  refine ⟨?_, rfl, ?_, rfl, ?_, ?_, ?_⟩
  · intro hrep
    obtain ⟨r1, r2⟩ := closed_iota_view.diffTy_inRange hrep
    rw [closed_iota_view.cursor.advance_pos_live I d hb hd _ _ ha hb' rfl (by omega) r2]
    simp only [closed_iota_view.begin_cursor, closed_iota_view.end_cursor]
    rw [if_pos (by omega)]
    have : b - a ≤ b - a + 1 - 1 := by omega
    simp only [this, decide_True, b2i, if_true]
    congr 2
    omega
  · rw [closed_iota_view.cursor.advance_neg I d hb hd _ _ hb' (by omega) (by omega)
      (by simpa [closed_iota_view.end_cursor, b2i] using hb')]
    simp [closed_iota_view.end_cursor, b2i]
  · rcases eq_or_lt_of_le hab with h | h
    · subst h
      simp [closed_iota_view.cursor.advance_zero, closed_iota_view.begin_cursor]
    · rw [closed_iota_view.cursor.advance_pos_live I d hb hd _ _ ha hb' rfl (by omega)
        (by omega)]
      simp only [closed_iota_view.begin_cursor]
      rw [if_pos (by omega)]
      have : ¬ (b - a ≤ b - a - 1) := by omega
      simp [this, b2i]
  · intro hd2
    have h5 := closed_iota_view.two_pow_le_pred2 hd2
    exact closed_iota_view.diffTy_inRange_of_bounds (by omega) (by omega)
  · intro hex
    apply closed_iota_view.diffTy_inRange_of_bounds (by omega)
    by_contra hcon
    exact hex ⟨by omega, by omega⟩

/-- Witness of the amended C5 on `int` with a 64-bit difference type: the closed sequence
`[0, 5]`, `advance(6)` then `advance(-1)`. -/
theorem C5_exhaustion_absorption_witness :
    (0 < int32.bits ∧ int32.bits < 64 ∧ int32.InRange 0 ∧ int32.InRange 5 ∧
      (0 : Int) ≤ 5 ∧ iota_distance_ int32 64 0 5 + 1 = 6 ∧
      (diffTy 64).InRange (iota_distance_ int32 64 0 5 + 1)) ∧
    (⟨0, 5⟩ : closed_iota_view).begin_cursor.advance int32 64 (iota_distance_ int32 64 0 5 + 1)
        = some (⟨0, 5⟩ : closed_iota_view).end_cursor ∧
    (⟨0, 5⟩ : closed_iota_view).end_cursor.advance int32 64 (-1) = some ⟨5, 5, false⟩ ∧
    (⟨0, 5⟩ : closed_iota_view).begin_cursor.advance int32 64 (iota_distance_ int32 64 0 5)
        = some ⟨5, 5, false⟩ :=
  ⟨by decide,
    (C5_exhaustion_absorption int32 64 (by decide) (by decide) 0 5 (by decide) (by decide)
      (by decide)).1 (by decide),
    (C5_exhaustion_absorption int32 64 (by decide) (by decide) 0 5 (by decide) (by decide)
      (by decide)).2.2.1,
    (C5_exhaustion_absorption int32 64 (by decide) (by decide) 0 5 (by decide) (by decide)
      (by decide)).2.2.2.2.1⟩

/-- Claim C6: for totally ordered `From` and `To`, the two-argument constructors of
`iota_view` and of `closed_iota_view` succeed if and only if `from <= to`, and then hold
the two values; with `from > to`, as for `from = 5`, `to = 1`, the construction is a
contract violation and there is no view to traverse. -/
theorem C6_construction_checks_bounds (a b : Int) :
    ((iota_view.mk? true a b).isSome = true ↔ a ≤ b) ∧
      ((closed_iota_view.mk? true a b).isSome = true ↔ a ≤ b) ∧
      (a ≤ b → iota_view.mk? true a b = some ⟨a, b⟩ ∧
        closed_iota_view.mk? true a b = some ⟨a, b⟩) ∧
      (b < a → iota_view.mk? true a b = none ∧ closed_iota_view.mk? true a b = none ∧
        views.iota a b = none ∧ views.ints a b = none ∧ views.closed_iota a b = none) ∧
      views.iota 5 1 = none ∧ views.closed_iota 5 1 = none ∧
      (∀ (I : IntTy) (fuel : Nat), (views.iota 5 1).map (iota_view.toList I fuel) = none) := by
  have key1 : ∀ x y : Int, iota_view.mk? true x y = if x ≤ y then some ⟨x, y⟩ else none := by
    intro x y
    unfold iota_view.mk?
    rw [iota_view.iota_check_bounds_eq]
    by_cases h : x ≤ y <;> simp [h]
  have key2 : ∀ x y : Int,
      closed_iota_view.mk? true x y = if x ≤ y then some ⟨x, y⟩ else none := by
    intro x y
    unfold closed_iota_view.mk?
    rw [closed_iota_view.closed_check_bounds_eq]
    by_cases h : x ≤ y <;> simp [h]
  simp only [views.iota, views.ints, views.closed_iota, key1, key2]
  refine ⟨?_, ?_, ?_, ?_, by decide, by decide, ?_⟩
  · by_cases h : a ≤ b <;> simp [h]
  · by_cases h : a ≤ b <;> simp [h]
  · intro h; simp [h]
  · intro h
    have : ¬ a ≤ b := by omega
    simp [this]
  · intro I fuel
    rfl

/-- Claim C7: for a cursor of a closed sequence that satisfies the state invariant and
every `n > 0` of the difference type, `advance(n)` passes its `RANGES_ENSURE` check if
and only if `n <= iota_distance_(from_, to_) + (1 if live, 0 if exhausted)`, which is if
and only if `n` successive `next()` calls all succeed; every positive advance from the
exhausted cursor fails, and an accepted advance leaves `from_ <= to_`. -/
theorem C7_closed_advance_check (I : IntTy) (d : Nat) (hb : 0 < I.bits) (hd : I.bits < d)
    (c : closed_iota_view.cursor) (hc : c.Valid I) (n : Int) (hn : 0 < n)
    (hnD : (diffTy d).InRange n) :
    ((c.advance I d n).isSome = true ↔
        n ≤ iota_distance_ I d c.from_ c.to_ + b2i (!c.done_)) ∧
      ((c.advance I d n).isSome = true ↔
        (closed_iota_view.cursor.nextN I n.toNat c).isSome = true) ∧
      (c.done_ = true → c.advance I d n = none) ∧
      (∀ c', c.advance I d n = some c' → c'.from_ ≤ c'.to_ ∧ c'.to_ = c.to_) := by
  have hn2 := (closed_iota_view.diffTy_inRange hnD).2
  have hnext := closed_iota_view.cursor.nextN_isSome_iff I hb n.toNat c hc
  rw [Int.toNat_of_nonneg (le_of_lt hn)] at hnext
  rw [hnext]
  obtain ⟨hf, ht, hle, hdn⟩ := hc
  rw [iota_distance_exact I d hb hd hf ht]
  cases hdone : c.done_
  · rw [closed_iota_view.cursor.advance_pos_live I d hb hd c n hf ht hdone hn hn2]
    simp only [b2i, Bool.not_false, if_true]
    by_cases h1 : n - 1 ≤ c.to_ - c.from_
    · simp only [h1, if_true, Option.isSome_some, true_iff, Option.some.injEq]
      refine ⟨by omega, by omega, by simp, ?_⟩
      intro c' hc'
      subst hc'
      simp only [and_true]
      by_cases h2 : c.to_ - c.from_ ≤ n - 1
      · simp only [h2, decide_True, b2i, if_true]; omega
      · simp only [h2, decide_False, b2i, Bool.false_eq_true, if_false]; omega
    · simp only [h1, if_false, Option.isSome_none, Bool.false_eq_true, false_iff]
      refine ⟨by omega, by omega, by simp, ?_⟩
      intro c' hc'
      cases hc'
  · have hv : c.Valid I := ⟨hf, ht, hle, hdn⟩
    rw [closed_iota_view.cursor.advance_pos_done I d hb hd c n hv hdone hn hn2]
    have := hdn hdone
    simp only [b2i, Bool.not_true, Bool.false_eq_true, if_false, Option.isSome_none, false_iff]
    refine ⟨by omega, by omega, by simp, ?_⟩
    intro c' hc'
    cases hc'

/-- Witness of C7 on `int` with a 64-bit difference type: the live cursor at 2 of the
closed sequence up to 5, `advance(4)` is accepted. -/
theorem C7_closed_advance_check_witness :
    (0 < int32.bits ∧ int32.bits < 64 ∧ (⟨2, 5, false⟩ : closed_iota_view.cursor).Valid int32 ∧
      (0 : Int) < 4 ∧ (diffTy 64).InRange 4) ∧
    (((⟨2, 5, false⟩ : closed_iota_view.cursor).advance int32 64 4).isSome = true ↔
        (4 : Int) ≤ iota_distance_ int32 64 (⟨2, 5, false⟩ : closed_iota_view.cursor).from_
          (⟨2, 5, false⟩ : closed_iota_view.cursor).to_
          + b2i (!(⟨2, 5, false⟩ : closed_iota_view.cursor).done_)) ∧
    ((⟨2, 5, false⟩ : closed_iota_view.cursor).advance int32 64 4).isSome = true ∧
    ((⟨2, 5, false⟩ : closed_iota_view.cursor).advance int32 64 5) = none :=
  ⟨by decide,
    (C7_closed_advance_check int32 64 (by decide) (by decide) ⟨2, 5, false⟩ (by decide) 4
      (by decide) (by decide)).1, by decide, by decide⟩

/-- Claim C8: on the cursor of a closed sequence, `read()` and `next()` are contract
violations if and only if the cursor is exhausted (`done_` is set); on a live cursor
`read()` returns the current value `from_` and `next()` succeeds. -/
theorem C8_read_next_fail_iff_exhausted (I : IntTy) (c : closed_iota_view.cursor) :
    (c.read = none ↔ c.done_ = true) ∧ (c.next I = none ↔ c.done_ = true) ∧
      (c.done_ = false → c.read = some c.from_ ∧ (c.next I).isSome = true) := by
  obtain ⟨f, T, dn⟩ := c
  cases dn
  · refine ⟨by simp [closed_iota_view.cursor.read_eq], ?_, ?_⟩
    · by_cases h : f = T <;> simp [closed_iota_view.cursor.next_eq, h]
    · intro _
      by_cases h : f = T <;>
        simp [closed_iota_view.cursor.read_eq, closed_iota_view.cursor.next_eq, h]
  · simp [closed_iota_view.cursor.read_eq, closed_iota_view.cursor.next_eq]

/-- Claim C9, as the code behaves: on `unsigned int` the call `iota_advance_(i, n)` with
`i = 2` and `n = -5` is not rejected; it returns the wrapped-around value
`2 ^ 32 - 3 = 4294967293`, and so does `advance(-5)` on a cursor of `iota_view`. -/
theorem C9_unsigned_advance_wraps_around :
    iota_advance_ uint32 64 2 (-5) = 4294967293 ∧
      (⟨2⟩ : iota_view.cursor).advance uint32 64 (-5) = ⟨4294967293⟩ ∧
      (4294967293 : Int) = 2 - 5 + 2 ^ 32 ∧ uint32.InRange 4294967293 := by
  decide

/-- Claim C10 fails as stated: `prev()` on the begin cursor of the closed sequence
`[3, 5]` is not a contract violation; it returns the live cursor whose current value
is 2. -/
theorem C10_prev_at_begin_counterexample :
    closed_iota_view.cursor.prev int32 (⟨3, 5⟩ : closed_iota_view).begin_cursor
        = some ⟨2, 5, false⟩ ∧
      closed_iota_view.cursor.prev int32 (⟨3, 5⟩ : closed_iota_view).begin_cursor ≠ none := by
  decide

/-- Claim C10, amended: `prev()` has no check. On the begin cursor of a closed sequence
`[a, b]` whose `a` is greater than the smallest value of its type it succeeds and
returns the live cursor whose current value is `a - 1`. -/
theorem C10_prev_at_begin_unchecked (I : IntTy) (hb : 0 < I.bits) (a b : Int)
    (ha : I.InRange a) (hmin : I.minVal < a) :
    closed_iota_view.cursor.prev I (⟨a, b⟩ : closed_iota_view).begin_cursor
      = some ⟨a - 1, b, false⟩ := by
  have hr : I.InRange (a - 1) := by
    unfold IntTy.InRange at ha ⊢; omega
  simp [closed_iota_view.cursor.prev, closed_iota_view.begin_cursor, I.wrap_of_inRange hb hr]

/-- Witness of the amended C10 on `int`: the begin cursor of `[3, 5]`. -/
theorem C10_prev_at_begin_unchecked_witness :
    (0 < int32.bits ∧ int32.InRange 3 ∧ int32.minVal < 3) ∧
    closed_iota_view.cursor.prev int32 (⟨3, 5⟩ : closed_iota_view).begin_cursor
      = some ⟨3 - 1, 5, false⟩ :=
  ⟨by decide, C10_prev_at_begin_unchecked int32 (by decide) 3 5 (by decide) (by decide)⟩


/-! ## Claims: exact arithmetic of the helpers -/

/-- An unsigned value in range is nonnegative and below `2 ^ bits`. -/
theorem IntTy.inRange_unsigned (I : IntTy) (hs : I.isSigned = false) (x : Int) :
    I.InRange x ↔ 0 ≤ x ∧ x < 2 ^ I.bits := by
  unfold IntTy.InRange IntTy.minVal IntTy.maxVal
  simp only [hs, Bool.false_eq_true, if_false]
  omega

/-- Claim C11: for an unsigned `w`-bit value `i` and a distance `n` of any sign with
`0 <= i + n < 2 ^ w`, the unsigned `iota_advance_(i, n)` sets `i` to exactly `i + n`.
No intermediate result leaves its type: for `n >= 0` the conversion of `n` to the
unsigned type keeps its value, and for `n < 0` the magnitude `-n` is formed in the
difference type, converted unchanged, and subtracted. -/
theorem C11_unsigned_advance_exact (I : IntTy) (d : Nat) (hs : I.isSigned = false)
    (hb : 0 < I.bits) (hd : I.bits < d) (i n : Int) (hi : I.InRange i)
    (hr : 0 ≤ i + n ∧ i + n < 2 ^ I.bits) :
    iota_advance_ I d i n = i + n ∧ iota_advance_unsigned I d i n = i + n ∧
      (0 ≤ n → I.wrap n = n ∧ iota_advance_ I d i n = I.wrap (i + n)) ∧
      (n < 0 → castD d (-n) = -n ∧ I.wrap (castD d (-n)) = -n ∧ 0 ≤ i - -n ∧
        iota_advance_ I d i n = I.wrap (i - -n)) := by
  have h4 := two_pow_le_pred hd
  have hd0 : 0 < d := by omega
  have hi' := (I.inRange_unsigned hs i).1 hi
  have hr' : I.InRange (i + n) := (I.inRange_unsigned hs (i + n)).2 hr
  have hmain := iota_advance_exact I d hb hd hi hr'
  have hu : iota_advance_ I d i n = iota_advance_unsigned I d i n := by
    simp [iota_advance_, hs]
  refine ⟨hmain, hu ▸ hmain, ?_, ?_⟩
  · intro hn
    have hn' : I.InRange n := (I.inRange_unsigned hs n).2 ⟨hn, by omega⟩
    exact ⟨I.wrap_of_inRange hb hn', by rw [hmain, I.wrap_of_inRange hb hr']⟩
  · intro hn
    have hc : castD d (-n) = -n := castD_of_bounds hd0 (by omega) (by omega)
    have hn' : I.InRange (-n) := (I.inRange_unsigned hs (-n)).2 ⟨by omega, by omega⟩
    refine ⟨hc, by rw [hc]; exact I.wrap_of_inRange hb hn', by omega, ?_⟩
    rw [hmain, show i - -n = i + n by ring, I.wrap_of_inRange hb hr']

/-- Witness of C11 on `unsigned int` with a 64-bit difference type: `i = 5`, `n = -3`
gives 2. -/
theorem C11_unsigned_advance_exact_witness :
    (uint32.isSigned = false ∧ 0 < uint32.bits ∧ uint32.bits < 64 ∧ uint32.InRange 5 ∧
      ((0 : Int) ≤ 5 + -3 ∧ (5 : Int) + -3 < 2 ^ uint32.bits)) ∧
    iota_advance_ uint32 64 5 (-3) = 5 + -3 ∧ iota_advance_ uint32 64 5 (-3) = 2 :=
  ⟨by decide,
    (C11_unsigned_advance_exact uint32 64 rfl (by decide) (by decide) 5 (-3) (by decide)
      (by decide)).1, by decide⟩

/-- Claim C15: for two unsigned `w`-bit values `i0` and `i1` and a difference type wider
than `w` bits, `iota_distance_(i0, i1)` is the mathematical integer `i1 - i0`
(negative when `i0 > i1`), the inner unsigned subtraction (`i0 - i1` when `i0 > i1`,
`i1 - i0` otherwise) does not underflow, and
`iota_distance_(i1, i0) = -iota_distance_(i0, i1)`. -/
theorem C15_unsigned_distance_exact (I : IntTy) (d : Nat) (hs : I.isSigned = false)
    (hb : 0 < I.bits) (hd : I.bits < d) (i0 i1 : Int) (h0 : I.InRange i0)
    (h1 : I.InRange i1) :
    iota_distance_ I d i0 i1 = i1 - i0 ∧ iota_distance_unsigned I d i0 i1 = i1 - i0 ∧
      (i0 > i1 → I.wrap (i0 - i1) = i0 - i1 ∧ 0 < i0 - i1 ∧ iota_distance_ I d i0 i1 < 0) ∧
      (i0 ≤ i1 → I.wrap (i1 - i0) = i1 - i0 ∧ 0 ≤ i1 - i0) ∧
      iota_distance_ I d i1 i0 = -iota_distance_ I d i0 i1 := by
  have e01 := iota_distance_exact I d hb hd h0 h1
  have e10 := iota_distance_exact I d hb hd h1 h0
  have hu : iota_distance_ I d i0 i1 = iota_distance_unsigned I d i0 i1 := by
    simp [iota_distance_, hs]
  have h0' := (I.inRange_unsigned hs i0).1 h0
  have h1' := (I.inRange_unsigned hs i1).1 h1
  refine ⟨e01, hu ▸ e01, ?_, ?_, by rw [e01, e10]; ring⟩
  · intro h
    have hr : I.InRange (i0 - i1) := (I.inRange_unsigned hs _).2 ⟨by omega, by omega⟩
    exact ⟨I.wrap_of_inRange hb hr, by omega, by rw [e01]; omega⟩
  · intro h
    have hr : I.InRange (i1 - i0) := (I.inRange_unsigned hs _).2 ⟨by omega, by omega⟩
    exact ⟨I.wrap_of_inRange hb hr, by omega⟩

/-- Witness of C15 on `unsigned int` with a 64-bit difference type: from 7 back to 2 the
distance is -5. -/
theorem C15_unsigned_distance_exact_witness :
    (uint32.isSigned = false ∧ 0 < uint32.bits ∧ uint32.bits < 64 ∧ uint32.InRange 7 ∧
      uint32.InRange 2) ∧
    iota_distance_ uint32 64 7 2 = 2 - 7 ∧ iota_distance_ uint32 64 7 2 = -5 :=
  ⟨by decide,
    (C15_unsigned_distance_exact uint32 64 rfl (by decide) (by decide) 7 2 (by decide)
      (by decide)).1, by decide⟩


/-! ## Claims: length category, difference type, `take` -/

/-- Claim C13: the declared length category of `iota_view<From, To>` is infinite if and
only if `To` is `unreachable_sentinel_t`, finite if and only if a bound is present and
both `From` and `To` are integral types, and unknown in every other case; the view
returned by the one-argument `views::iota(1)` is classified infinite. -/
theorem C13_iota_view_cardinality (From To : Ty) :
    (iota_view.cardinality_of From To = .infinite ↔ To = .unreachable_sentinel_t) ∧
      (iota_view.cardinality_of From To = .finite ↔
        To ≠ .unreachable_sentinel_t ∧ From.is_integral = true ∧ To.is_integral = true) ∧
      (iota_view.cardinality_of From To = .unknown ↔
        To ≠ .unreachable_sentinel_t ∧ ¬ (From.is_integral = true ∧ To.is_integral = true)) ∧
      iota_view.cardinality_of (views.iota_unbounded (.integral int32)).1
        (views.iota_unbounded (.integral int32)).2 = .infinite := by
  refine ⟨?_, ?_, ?_, by decide⟩ <;>
    cases From <;> cases To <;>
      simp [iota_view.cardinality_of, Ty.is_integral]

/-- Claim C14: for a container `rng` and `n >= 0`, `actions::take(rng, n)` returns the
container that holds exactly the first `min(n, size(rng))` elements of `rng` in their
order; for `n >= size(rng)` the container is returned unchanged; and a negative `n`
violates the `RANGES_EXPECT(n >= 0)` precondition. -/
theorem C14_take_truncates_to_prefix {α : Type} (rng : List α) (n : Int) :
    (0 ≤ n → actions.take rng n = some (rng.take (min n.toNat rng.length)) ∧
        actions.take rng n = some (rng.take n.toNat) ∧
        (rng.take n.toNat).length = min n.toNat rng.length ∧
        rng.take n.toNat <+: rng) ∧
      ((rng.length : Int) ≤ n → actions.take rng n = some rng) ∧
      (n < 0 → actions.take rng n = none) := by
  have key : 0 ≤ n → actions.take rng n = some (rng.take n.toNat) := by
    intro hn
    unfold actions.take
    rw [RANGES_EXPECT_bind, if_pos (by simpa using hn)]
    unfold actions.erase actions.next actions.begin actions.end_
    simp only [zero_add]
    by_cases h : n.toNat ≤ rng.length
    · simp [h]
    · have h' : rng.length ≤ n.toNat := by omega
      simp [h, List.take_of_length_le h']
  refine ⟨?_, ?_, ?_⟩
  · intro hn
    refine ⟨?_, key hn, List.length_take _ _, List.take_prefix _ _⟩
    rw [key hn]
    congr 1
    by_cases h : n.toNat ≤ rng.length
    · rw [min_eq_left h]
    · have h' : rng.length ≤ n.toNat := by omega
      rw [min_eq_right h', List.take_of_length_le h', List.take_of_length_le (le_refl _)]
  · intro hn
    have h0 : 0 ≤ n := le_trans (Int.ofNat_nonneg _) hn
    rw [key h0, List.take_of_length_le (by omega)]
  · intro hn
    unfold actions.take
    rw [RANGES_EXPECT_bind, if_neg]
    simp only [ge_iff_le, decide_eq_true_eq, not_le]
    exact hn

/-- Claim C16: for every width `0 < N < 64` the type that `promote_as_signed_<N>`
chooses has at least `N + 1` bits (at least 16 for `N < 16`, 32 for `16 <= N < 32`, 64 for
`32 <= N < 64`), so for two signed `N`-bit values `i0` and `i1` both widen unchanged and
`iota_distance_(i0, i1)` is the mathematical integer `i1 - i0`; from `INT32_MIN` to
`INT32_MAX` it is `2 ^ 32 - 1`. -/
theorem C16_signed_distance_exact (P : Platform) (hP : P.Conforming) (N : Nat)
    (hN0 : 0 < N) (hN : N < 64) :
    ∃ T, promote_as_signed_ P N = some T ∧ N + 1 ≤ T.bits P ∧
      (N < 16 → T = .int_fast16_t ∧ 16 ≤ T.bits P) ∧
      (16 ≤ N → N < 32 → T = .int_fast32_t ∧ 32 ≤ T.bits P) ∧
      (32 ≤ N → T = .int_fast64_t ∧ 64 ≤ T.bits P) ∧
      (∀ i0 i1 : Int, (⟨true, N⟩ : IntTy).InRange i0 → (⟨true, N⟩ : IntTy).InRange i1 →
        castD (T.bits P) i0 = i0 ∧ castD (T.bits P) i1 = i1 ∧
        iota_distance_ ⟨true, N⟩ (T.bits P) i0 i1 = i1 - i0 ∧
        iota_distance_signed (T.bits P) i0 i1 = i1 - i0) ∧
      (N = 32 → iota_distance_ int32 (T.bits P) (-2147483648) 2147483647 = 2 ^ 32 - 1) := by
  obtain ⟨h16, h32, h64, -⟩ := hP
  have hdist : ∀ T : DiffType, N + 1 ≤ T.bits P →
      ∀ i0 i1 : Int, (⟨true, N⟩ : IntTy).InRange i0 → (⟨true, N⟩ : IntTy).InRange i1 →
        castD (T.bits P) i0 = i0 ∧ castD (T.bits P) i1 = i1 ∧
        iota_distance_ ⟨true, N⟩ (T.bits P) i0 i1 = i1 - i0 ∧
        iota_distance_signed (T.bits P) i0 i1 = i1 - i0 := by
    intro T hT i0 i1 h0 h1
    have hd : (⟨true, N⟩ : IntTy).bits < T.bits P := hT
    have hb : 0 < (⟨true, N⟩ : IntTy).bits := hN0
    have h2 := two_pow_pred hb
    have h3 := two_pow_pos ((⟨true, N⟩ : IntTy).bits - 1)
    have h4 := two_pow_le_pred hd
    obtain ⟨a1, -, -, a4⟩ := IntTy.inRange_abs _ hb h0
    obtain ⟨b1, -, -, b4⟩ := IntTy.inRange_abs _ hb h1
    have a5 := a4 rfl
    have b5 := b4 rfl
    have e := iota_distance_exact ⟨true, N⟩ (T.bits P) hb hd h0 h1
    refine ⟨castD_of_bounds (by omega) (by omega) (by omega),
      castD_of_bounds (by omega) (by omega) (by omega), e, ?_⟩
    simpa [iota_distance_] using e
  have h32' : ∀ T : DiffType, N = 32 → N + 1 ≤ T.bits P →
      iota_distance_ int32 (T.bits P) (-2147483648) 2147483647 = 2 ^ 32 - 1 := by
    intro T hN32 hT
    subst hN32
    rw [iota_distance_exact int32 (T.bits P) (by decide) hT (by decide) (by decide)]
    norm_num
  by_cases c1 : N < 16
  · refine ⟨.int_fast16_t, by simp [promote_as_signed_, c1], ?_, ?_, ?_, ?_, ?_, ?_⟩
    · show N + 1 ≤ P.int_fast16_t
      omega
    · intro _; exact ⟨rfl, h16⟩
    · intro h; omega
    · intro h; omega
    · exact hdist _ (show N + 1 ≤ P.int_fast16_t by omega)
    · intro h; omega
  · by_cases c2 : N < 32
    · have c1' : 16 ≤ N := by omega
      refine ⟨.int_fast32_t, by simp [promote_as_signed_, c1, c1', c2], ?_, ?_, ?_, ?_, ?_, ?_⟩
      · show N + 1 ≤ P.int_fast32_t
        omega
      · intro h; omega
      · intro _ _; exact ⟨rfl, h32⟩
      · intro h; omega
      · exact hdist _ (show N + 1 ≤ P.int_fast32_t by omega)
      · intro h; omega
    · have c1' : 16 ≤ N := by omega
      have c2' : 32 ≤ N := by omega
      have c3 : ¬ (16 ≤ N ∧ N < 32) := by omega
      refine ⟨.int_fast64_t, by simp [promote_as_signed_, c1, c3, c2', hN], ?_, ?_, ?_, ?_, ?_, ?_⟩
      · show N + 1 ≤ P.int_fast64_t
        omega
      · intro h; omega
      · intro _ h; omega
      · intro _; exact ⟨rfl, h64⟩
      · exact hdist _ (show N + 1 ≤ P.int_fast64_t by omega)
      · intro h; exact h32' _ h (show N + 1 ≤ P.int_fast64_t by omega)

/-- Witness of C16 on a platform whose `int_fastN_t` are all 64 bits wide, for `int`
(`N = 32`): the chosen type is `int_fast64_t` and the distance from `INT32_MIN` to
`INT32_MAX` is `2 ^ 32 - 1`. -/
theorem C16_signed_distance_exact_witness :
    (lp64.Conforming ∧ 0 < 32 ∧ 32 < 64) ∧
    promote_as_signed_ lp64 32 = some .int_fast64_t ∧
    iota_distance_ int32 (DiffType.bits lp64 .int_fast64_t) (-2147483648) 2147483647
      = 4294967295 ∧
    ∃ T, promote_as_signed_ lp64 32 = some T ∧ 32 + 1 ≤ T.bits lp64 :=
  ⟨by decide, by decide, by decide,
    (C16_signed_distance_exact lp64 (by decide) 32 (by decide) (by decide)).imp
      fun _ h => ⟨h.1, h.2.1⟩⟩


/-- Claim C17 fails as stated: for `N = 16` the fixed-width type of 16 bits is at least
`N` bits wide, yet `promote_as_signed_<16>` chooses `int_fast32_t`; and for `N = 64`,
which is not larger than 64 and for which the 64-bit type is wide enough in the sense of
the claim, it chooses `diffmax_t`. -/
theorem C17_narrowest_at_least_counterexample :
    promote_as_signed_ lp64 16 = some .int_fast32_t ∧
      ¬ NarrowestAtLeast 16 .int_fast32_t ∧ NarrowestAtLeast 16 .int_fast16_t ∧
      promote_as_signed_ lp64 64 = some .diffmax_t ∧ NarrowestAtLeast 64 .int_fast64_t := by
  refine ⟨by decide, ?_, ?_, by decide, ?_⟩
  · rintro ⟨w, hw, -, hmin⟩
    have hw' : w = 32 := by
      simp only [DiffType.nominalBits, Option.some.injEq] at hw
      omega
    have := hmin .int_fast16_t 16 rfl (le_refl _)
    omega
  · exact ⟨16, rfl, le_refl _, fun _ _ _ h => h⟩
  · refine ⟨64, rfl, le_refl _, fun _ _ _ h => h⟩

/-- Claim C17, amended: the type chosen by `promote_as_signed_<N>` is the narrowest of
the fixed-width types (16, 32, 64 bits) that is more than `N` bits wide; it is
`diffmax_t` exactly when there is none (`N >= 64`) and `N` is at most the width of
`intmax_t`, and beyond that width the `static_assert` rejects the instantiation. -/
theorem C17_narrowest_above (P : Platform) (N : Nat) :
    (N < 64 → ∃ T, promote_as_signed_ P N = some T ∧ NarrowestAbove N T) ∧
      (promote_as_signed_ P N = some .diffmax_t ↔ 64 ≤ N ∧ N ≤ P.intmax_t) ∧
      (promote_as_signed_ P N = none ↔ 64 ≤ N ∧ P.intmax_t < N) := by
  have hnom : ∀ (T' : DiffType) (w' : Nat), T'.nominalBits = some w' →
      w' = 16 ∨ w' = 32 ∨ w' = 64 := by
    intro T' w' h
    cases T' <;> simp only [DiffType.nominalBits, Option.some.injEq] at h <;>
      first | omega | cases h
  by_cases c1 : N < 16
  · have e : promote_as_signed_ P N = some .int_fast16_t := by simp [promote_as_signed_, c1]
    rw [e]
    refine ⟨fun _ => ⟨_, rfl, 16, rfl, c1, ?_⟩, ?_, ?_⟩
    · intro T' w' h hlt
      rcases hnom T' w' h with h | h | h <;> omega
    · simp only [Option.some.injEq, reduceCtorEq, false_iff]; omega
    · simp only [reduceCtorEq, false_iff]; omega
  · by_cases c2 : N < 32
    · have c1' : 16 ≤ N := by omega
      have e : promote_as_signed_ P N = some .int_fast32_t := by
        simp [promote_as_signed_, c1, c1', c2]
      rw [e]
      refine ⟨fun _ => ⟨_, rfl, 32, rfl, c2, ?_⟩, ?_, ?_⟩
      · intro T' w' h hlt
        rcases hnom T' w' h with h | h | h <;> omega
      · simp only [Option.some.injEq, reduceCtorEq, false_iff]; omega
      · simp only [reduceCtorEq, false_iff]; omega
    · have c3 : ¬ (16 ≤ N ∧ N < 32) := by omega
      have c2' : 32 ≤ N := by omega
      by_cases c4 : N < 64
      · have e : promote_as_signed_ P N = some .int_fast64_t := by
          simp [promote_as_signed_, c1, c3, c2', c4]
        rw [e]
        refine ⟨fun _ => ⟨_, rfl, 64, rfl, c4, ?_⟩, ?_, ?_⟩
        · intro T' w' h hlt
          rcases hnom T' w' h with h | h | h <;> omega
        · simp only [Option.some.injEq, reduceCtorEq, false_iff]; omega
        · simp only [reduceCtorEq, false_iff]; omega
      · have c5 : ¬ (32 ≤ N ∧ N < 64) := by omega
        by_cases c6 : N ≤ P.intmax_t
        · have e : promote_as_signed_ P N = some .diffmax_t := by
            simp [promote_as_signed_, c1, c3, c5, c6]
          rw [e]
          refine ⟨fun h => absurd h c4, ?_, ?_⟩
          · simp only [true_iff]; omega
          · simp only [reduceCtorEq, false_iff]; omega
        · have e : promote_as_signed_ P N = none := by
            simp [promote_as_signed_, c1, c3, c5, c6]
          rw [e]
          refine ⟨fun h => absurd h c4, ?_, ?_⟩
          · simp only [reduceCtorEq, false_iff]; omega
          · simp only [true_iff]; omega


/-! ## Modular view of the conversions -/

/-- A converted value is a value of the type. -/
theorem IntTy.wrap_inRange (I : IntTy) (hb : 0 < I.bits) (x : Int) : I.InRange (I.wrap x) := by
  have h2 := two_pow_pred hb
  have h3 := two_pow_pos (I.bits - 1)
  have hM : (0 : Int) < 2 ^ I.bits := two_pow_pos _
  unfold IntTy.InRange IntTy.minVal IntTy.maxVal IntTy.wrap
  cases hs : I.isSigned <;> simp only [if_true, if_false, Bool.false_eq_true]
  · have := Int.emod_nonneg x (ne_of_gt hM)
    have := Int.emod_lt_of_pos x hM
    omega
  · have := Int.emod_nonneg (x + 2 ^ (I.bits - 1)) (ne_of_gt hM)
    have := Int.emod_lt_of_pos (x + 2 ^ (I.bits - 1)) hM
    omega

/-- A conversion changes a value by a multiple of `2 ^ bits`. -/
theorem IntTy.wrap_modEq (I : IntTy) (x : Int) : I.wrap x ≡ x [ZMOD 2 ^ I.bits] := by
  unfold IntTy.wrap
  cases hs : I.isSigned <;> simp only [if_true, if_false, Bool.false_eq_true]
  · exact Int.mod_modEq _ _
  · have := (Int.mod_modEq (x + 2 ^ (I.bits - 1)) (2 ^ I.bits)).sub_right (2 ^ (I.bits - 1))
    simpa using this

/-- Two values of a type that differ by a multiple of `2 ^ bits` are equal. -/
theorem IntTy.eq_of_modEq (I : IntTy) (hb : 0 < I.bits) {x y : Int} (hx : I.InRange x)
    (hy : I.InRange y) (h : x ≡ y [ZMOD 2 ^ I.bits]) : x = y := by
  have h2 := two_pow_pred hb
  have h3 := two_pow_pos (I.bits - 1)
  obtain ⟨k, hk⟩ := (Int.modEq_iff_dvd.1 h)
  unfold IntTy.InRange IntTy.minVal IntTy.maxVal at hx hy
  have hlt : -(2 ^ I.bits : Int) < y - x ∧ y - x < 2 ^ I.bits := by
    cases hs : I.isSigned <;> simp only [hs, if_true, if_false, Bool.false_eq_true] at hx hy <;>
      omega
  have hk0 : k = 0 := by
    have hM : (0 : Int) < 2 ^ I.bits := two_pow_pos _
    rw [hk] at hlt
    by_contra hne
    rcases lt_or_gt_of_ne hne with hneg | hpos
    · have : 2 ^ I.bits * k ≤ 2 ^ I.bits * (-1) :=
        mul_le_mul_of_nonneg_left (by omega) (le_of_lt hM)
      omega
    · have : 2 ^ I.bits * 1 ≤ 2 ^ I.bits * k :=
        mul_le_mul_of_nonneg_left (by omega) (le_of_lt hM)
      omega
  rw [hk0, mul_zero] at hk
  omega

namespace closed_iota_view

/-- The state invariant contains the state predicate. -/
theorem cursor.Valid.inv {I : IntTy} {c : cursor} (h : c.Valid I) : c.Inv :=
  ⟨h.2.2.1, h.2.2.2⟩

/-- A cursor that satisfies the invariant is determined by its bound and by its position
`from_ + done_`. -/
theorem cursor.eq_of_position {I : IntTy} {c y : cursor} (hc : c.Valid I) (hy : y.Valid I)
    (hto : c.to_ = y.to_) (hpos : c.from_ + b2i c.done_ = y.from_ + b2i y.done_) : c = y := by
  obtain ⟨-, -, hcle, hcd⟩ := hc
  obtain ⟨-, -, hyle, hyd⟩ := hy
  obtain ⟨f, T, dc⟩ := c
  obtain ⟨g, T', dy⟩ := y
  simp only at hto hpos hcle hcd hyle hyd
  subst hto
  cases dc <;> cases dy <;>
    simp only [b2i, if_true, if_false, Bool.false_eq_true, forall_const, false_implies,
      add_zero] at hpos hcd hyd <;>
    simp only [cursor.mk.injEq, and_true, true_and, and_false, Bool.false_eq_true,
      Bool.true_eq_false, reduceCtorEq] <;> omega

/-- After `k` successful `next()` calls from a cursor that satisfies the invariant, the
cursor satisfies the invariant, has the same bound, and its position `from_ + done_` is
`k` larger. -/
theorem cursor.nextN_position (I : IntTy) (hb : 0 < I.bits) (k : Nat) :
    ∀ c y : cursor, c.Valid I → cursor.nextN I k c = some y →
      y.Valid I ∧ y.to_ = c.to_ ∧ y.from_ + b2i y.done_ = c.from_ + b2i c.done_ + k := by
  induction k with
  | zero =>
    intro c y hc h
    simp only [cursor.nextN, Option.some.injEq] at h
    subst h
    exact ⟨hc, rfl, by simp⟩
  | succ k ih =>
    intro c y hc h
    obtain ⟨hf, ht, hle, hdn⟩ := hc
    obtain ⟨f, T, dn⟩ := c
    simp only at hf ht hle hdn
    cases dn
    · by_cases hfT : f = T
      · subst hfT
        have hv : (⟨f, f, true⟩ : cursor).Valid I := ⟨hf, hf, le_refl _, fun _ => rfl⟩
        simp only [cursor.nextN, cursor.next_eq, Bool.not_false, if_true, beq_self_eq_true,
          Option.some_bind] at h
        obtain ⟨h1, h2, h3⟩ := ih _ y hv h
        refine ⟨h1, h2, ?_⟩
        simp only [b2i, if_true, Bool.false_eq_true, if_false] at h3 ⊢
        push_cast
        omega
      · have hlt : f < T := lt_of_le_of_ne hle hfT
        have hr : I.InRange (f + 1) := by
          unfold IntTy.InRange at hf ht ⊢; omega
        have hv : (⟨f + 1, T, false⟩ : cursor).Valid I :=
          ⟨hr, ht, by simp only; omega, by simp⟩
        have hne : (f == T) = false := by simpa using hfT
        simp only [cursor.nextN, cursor.next_eq, Bool.not_false, if_true, hne,
          Bool.false_eq_true, if_false, Option.some_bind, I.wrap_of_inRange hb hr] at h
        obtain ⟨h1, h2, h3⟩ := ih _ y hv h
        refine ⟨h1, h2, ?_⟩
        simp only [b2i, Bool.false_eq_true, if_false] at h3 ⊢
        push_cast
        omega
    · simp [cursor.nextN, cursor.next_eq] at h

end closed_iota_view


/-! ## Claims: distances and single steps on the closed-range cursor -/

/-- From the begin cursor of the closed sequence `[a, b]`, `b - a + 1` calls of `next()`
all succeed and lead to its end cursor. -/
theorem closed_iota_view.cursor.nextN_begin_end (I : IntTy) (hb : 0 < I.bits) (a b : Int)
    (ha : I.InRange a) (hb' : I.InRange b) (hab : a ≤ b) :
    closed_iota_view.cursor.nextN I (b - a + 1).toNat ⟨a, b, false⟩ = some ⟨b, b, true⟩ := by
  have hv : (⟨a, b, false⟩ : closed_iota_view.cursor).Valid I := ⟨ha, hb', hab, by simp⟩
  have he : (⟨b, b, true⟩ : closed_iota_view.cursor).Valid I :=
    ⟨hb', hb', le_refl _, fun _ => rfl⟩
  have hiff := closed_iota_view.cursor.nextN_isSome_iff I hb (b - a + 1).toNat _ hv
  rw [Int.toNat_of_nonneg (by omega)] at hiff
  obtain ⟨y, hy⟩ := Option.isSome_iff_exists.1 (hiff.2 (by simp [b2i]))
  obtain ⟨hyv, hyto, hyp⟩ := closed_iota_view.cursor.nextN_position I hb _ _ y hv hy
  rw [hy]
  congr 1
  apply closed_iota_view.cursor.eq_of_position hyv he hyto
  have : (((b - a + 1).toNat : Nat) : Int) = b - a + 1 := Int.toNat_of_nonneg (by omega)
  simp only [b2i, Bool.false_eq_true, if_false, if_true] at hyp ⊢
  omega

/-- Claim C12 fails as stated: on `long` (64 bits, difference type `diffmax_t` of 65
bits) the end cursor of the closed sequence over all values is obtained from its begin
cursor by `2 ^ 64` successful `next()` calls, but `distance_to` from the begin cursor to
the end cursor is `-2 ^ 64`, which is neither that number of calls nor
`iota_distance_(a, b) + 1`. -/
theorem C12_distance_counterexample :
    promote_as_signed_ lp64 64 = some .diffmax_t ∧ DiffType.bits lp64 .diffmax_t = 65 ∧
      (⟨-9223372036854775808, 9223372036854775807⟩ : closed_iota_view).begin_cursor.Valid
        int64 ∧
      closed_iota_view.cursor.nextN int64 18446744073709551616
          (⟨-9223372036854775808, 9223372036854775807⟩ : closed_iota_view).begin_cursor
        = some (⟨-9223372036854775808, 9223372036854775807⟩ : closed_iota_view).end_cursor ∧
      (⟨-9223372036854775808, 9223372036854775807⟩ : closed_iota_view).begin_cursor.distance_to
          int64 65 (⟨-9223372036854775808, 9223372036854775807⟩ : closed_iota_view).end_cursor
        = -18446744073709551616 ∧
      (⟨-9223372036854775808, 9223372036854775807⟩ : closed_iota_view).begin_cursor.distance_to
          int64 65 (⟨-9223372036854775808, 9223372036854775807⟩ : closed_iota_view).end_cursor
        ≠ ((18446744073709551616 : Nat) : Int) ∧
      (⟨-9223372036854775808, 9223372036854775807⟩ : closed_iota_view).begin_cursor.distance_to
          int64 65 (⟨-9223372036854775808, 9223372036854775807⟩ : closed_iota_view).end_cursor
        ≠ iota_distance_ int64 65 (-9223372036854775808) 9223372036854775807 + 1 := by
  refine ⟨by decide, by decide, by decide, ?_, by decide, by decide, by decide⟩
  have h := closed_iota_view.cursor.nextN_begin_end int64 (by decide) (-9223372036854775808)
    9223372036854775807 (by decide) (by decide) (by decide)
  have e : ((9223372036854775807 : Int) - -9223372036854775808 + 1).toNat
      = 18446744073709551616 := by decide
  rw [e] at h
  exact h

/-- Claim C12, amended: if the cursor `y` is obtained from a cursor `x` that satisfies the
state invariant by exactly `k` successful `next()` calls and `k` is a value of the
difference type, then `y` satisfies the invariant with the same bound,
`x.distance_to(y) = k` and `y.distance_to(x) = -k`; in particular the distance from the
begin cursor of `[a, b]` to its end cursor is `iota_distance_(a, b) + 1` when that number
is a value of the difference type, and from `(b, live)` to `(b, done)` it is 1. The
number of calls is a value of the difference type whenever that type has at least two
bits more than the value type. -/
theorem C12_distance_counts_next_calls (I : IntTy) (d : Nat) (hb : 0 < I.bits)
    (hd : I.bits < d) (x y : closed_iota_view.cursor) (k : Nat) (hx : x.Valid I)
    (hk : closed_iota_view.cursor.nextN I k x = some y) :
    y.Valid I ∧ y.to_ = x.to_ ∧
      ((diffTy d).InRange (k : Int) →
        x.distance_to I d y = k ∧ y.distance_to I d x = -(k : Int)) ∧
      (I.bits + 2 ≤ d → (diffTy d).InRange (k : Int)) ∧
      (∀ a b : Int, I.InRange a → I.InRange b → a ≤ b →
        (diffTy d).InRange (iota_distance_ I d a b + 1) →
        (⟨a, b⟩ : closed_iota_view).begin_cursor.distance_to I d
            (⟨a, b⟩ : closed_iota_view).end_cursor = iota_distance_ I d a b + 1) ∧
      (∀ b : Int, I.InRange b →
        (⟨b, b, false⟩ : closed_iota_view.cursor).distance_to I d ⟨b, b, true⟩ = 1) := by
  have h2 := two_pow_pred hb
  have h3 := two_pow_pos (I.bits - 1)
  have h4 := two_pow_le_pred hd
  obtain ⟨hy, hto, hpos⟩ := closed_iota_view.cursor.nextN_position I hb k x y hx hk
  have hdist : y.from_ - x.from_ + (b2i y.done_ - b2i x.done_) = (k : Int) := by omega
  refine ⟨hy, hto, ?_, ?_, ?_, ?_⟩
  · intro hrep
    obtain ⟨r1, r2⟩ := closed_iota_view.diffTy_inRange hrep
    constructor
    · rw [closed_iota_view.cursor.distance_to_of_representable I d hb hd x y hx.1 hy.1
        (by rw [hdist]; exact hrep)]
      exact hdist
    · rw [closed_iota_view.cursor.distance_to_of_representable I d hb hd y x hy.1 hx.1
        (closed_iota_view.diffTy_inRange_of_bounds (by omega) (by omega))]
      omega
  · intro hd2
    have := closed_iota_view.cursor.distance_representable I d hb hd2 x y hx.1 hy.1
    rw [hdist] at this
    exact this
  · intro a b ha hb' _ hrep
    rw [iota_distance_exact I d hb hd ha hb'] at hrep ⊢
    rw [closed_iota_view.cursor.distance_to_of_representable I d hb hd _ _ ha hb'
      (by simpa [closed_iota_view.begin_cursor, closed_iota_view.end_cursor, b2i] using hrep)]
    simp [closed_iota_view.begin_cursor, closed_iota_view.end_cursor, b2i]
  · intro b hb'
    rw [closed_iota_view.cursor.distance_to_of_representable I d hb hd _ _ hb' hb'
      (closed_iota_view.diffTy_inRange_of_bounds (by simp [b2i]; omega)
        (by simp [b2i]; omega))]
    simp [b2i]

/-- Witness of the amended C12 on `int` with a 64-bit difference type: four `next()`
calls lead from the live cursor at 2 of the closed sequence up to 5 to its exhausted
cursor. -/
theorem C12_distance_counts_next_calls_witness :
    (0 < int32.bits ∧ int32.bits < 64 ∧ (⟨2, 5, false⟩ : closed_iota_view.cursor).Valid int32 ∧
      closed_iota_view.cursor.nextN int32 4 ⟨2, 5, false⟩ = some ⟨5, 5, true⟩ ∧
      (diffTy 64).InRange ((4 : Nat) : Int)) ∧
    ((⟨2, 5, false⟩ : closed_iota_view.cursor).distance_to int32 64 ⟨5, 5, true⟩ = (4 : Nat) ∧
      (⟨5, 5, true⟩ : closed_iota_view.cursor).distance_to int32 64 ⟨2, 5, false⟩
        = -((4 : Nat) : Int)) :=
  ⟨by decide,
    (C12_distance_counts_next_calls int32 64 (by decide) (by decide) ⟨2, 5, false⟩
      ⟨5, 5, true⟩ 4 (by decide) (by decide)).2.2.1 (by decide)⟩

/-- Incrementing and then decrementing a value of a type gives the value back, also
across the wrap-around. -/
theorem IntTy.wrap_succ_pred (I : IntTy) (hb : 0 < I.bits) {x : Int} (hx : I.InRange x) :
    I.wrap (I.wrap (x + 1) - 1) = x := by
  apply I.eq_of_modEq hb (I.wrap_inRange hb _) hx
  have := ((I.wrap_modEq (x + 1)).sub_right 1)
  exact (I.wrap_modEq _).trans (by simpa using this)

/-- Decrementing and then incrementing a value of a type gives the value back, also
across the wrap-around. -/
theorem IntTy.wrap_pred_succ (I : IntTy) (hb : 0 < I.bits) {x : Int} (hx : I.InRange x) :
    I.wrap (I.wrap (x - 1) + 1) = x := by
  apply I.eq_of_modEq hb (I.wrap_inRange hb _) hx
  have := ((I.wrap_modEq (x - 1)).add_right 1)
  exact (I.wrap_modEq _).trans (by simpa using this)

/-- The decrement of a value `f <= T` is `T` only when `f` is the smallest and `T` the
largest value of the type. -/
theorem IntTy.wrap_pred_eq (I : IntTy) (hb : 0 < I.bits) {f T : Int} (hf : I.InRange f)
    (hT : I.InRange T) (hle : f ≤ T) (h : I.wrap (f - 1) = T) :
    f = I.minVal ∧ T = I.maxVal := by
  have hspan := I.maxVal_sub_minVal hb
  have hmod : T ≡ f - 1 [ZMOD 2 ^ I.bits] := h ▸ I.wrap_modEq (f - 1)
  have hM : (0 : Int) < 2 ^ I.bits := two_pow_pos _
  obtain ⟨hf1, hf2⟩ := hf
  obtain ⟨hT1, hT2⟩ := hT
  by_cases hmax : T = I.maxVal
  · refine ⟨?_, hmax⟩
    have hmin : I.InRange I.minVal := ⟨le_refl _, by omega⟩
    apply I.eq_of_modEq hb ⟨hf1, hf2⟩ hmin
    have h1 : T + 1 ≡ f [ZMOD 2 ^ I.bits] := by simpa using hmod.add_right 1
    have h2 : I.minVal + 2 ^ I.bits ≡ I.minVal [ZMOD 2 ^ I.bits] := by
      simp [Int.ModEq]
    have h3 : T + 1 = I.minVal + 2 ^ I.bits := by omega
    rw [h3] at h1
    exact h1.symm.trans h2
  · exfalso
    have hT' : I.InRange (T + 1) := ⟨by omega, by omega⟩
    have h1 : T + 1 ≡ f [ZMOD 2 ^ I.bits] := by simpa using hmod.add_right 1
    have := I.eq_of_modEq hb hT' ⟨hf1, hf2⟩ h1
    omega

/-- Claim C18 fails as stated: on `unsigned int` the live cursor `(0, 4294967295)` of the
closed sequence over the whole type satisfies the state predicate, but `prev()` wraps
its current value around to the bound and `next()` then sets `done_`, so
`next(prev(c))` is the exhausted cursor and not `c`. -/
theorem C18_next_prev_counterexample :
    (⟨0, 4294967295, false⟩ : closed_iota_view.cursor).Valid uint32 ∧
      (⟨0, 4294967295, false⟩ : closed_iota_view.cursor).Inv ∧
      ((⟨0, 4294967295, false⟩ : closed_iota_view.cursor).prev uint32).bind
          (closed_iota_view.cursor.next uint32) = some ⟨4294967295, 4294967295, true⟩ ∧
      ((⟨0, 4294967295, false⟩ : closed_iota_view.cursor).prev uint32).bind
          (closed_iota_view.cursor.next uint32) ≠ some ⟨0, 4294967295, false⟩ := by
  decide

/-- Claim C18, amended: wherever the single steps are defined by the language, for
every live cursor `c` (with `from_ == to_`, or with an increment of `from_` that is
defined), `prev(next(c)) = c`; and for every cursor `c` that satisfies the state
invariant and is exhausted or has a decrement of `from_` that is defined, other than the
live cursor whose `from_` is the smallest and whose `to_` is the largest value of the
type, `next(prev(c)) = c`. -/
theorem C18_prev_next_inverse (I : IntTy) (hb : 0 < I.bits) (c : closed_iota_view.cursor) :
    (c.done_ = false → I.InRange c.from_ → (c.from_ = c.to_ ∨ I.IncDefined c.from_) →
        (c.next I).bind (closed_iota_view.cursor.prev I) = some c) ∧
      (c.Valid I → (c.done_ = true ∨ I.DecDefined c.from_) →
        ¬ (c.done_ = false ∧ c.from_ = I.minVal ∧ c.to_ = I.maxVal) →
        (c.prev I).bind (closed_iota_view.cursor.next I) = some c) := by
  obtain ⟨f, T, dn⟩ := c
  constructor
  · intro hdn hf _
    simp only at hdn hf
    subst hdn
    by_cases hfT : f = T
    · subst hfT
      simp [closed_iota_view.cursor.next_eq, closed_iota_view.cursor.prev]
    · have hne : (f == T) = false := by simpa using hfT
      simp only [closed_iota_view.cursor.next_eq, Bool.not_false, if_true, hne,
        Bool.false_eq_true, if_false, Option.some_bind, closed_iota_view.cursor.prev,
        I.wrap_succ_pred hb hf]
  · intro hc _ hex
    obtain ⟨hf, ht, hle, hdn⟩ := hc
    simp only at hf ht hle hdn hex
    cases dn
    · have hne : I.wrap (f - 1) ≠ T := by
        intro h
        have := I.wrap_pred_eq hb hf ht hle h
        exact hex ⟨rfl, this.1, this.2⟩
      have hne' : (I.wrap (f - 1) == T) = false := by simpa using hne
      simp only [closed_iota_view.cursor.prev, Bool.false_eq_true, if_false, Option.some_bind,
        closed_iota_view.cursor.next_eq, Bool.not_false, if_true, hne',
        I.wrap_pred_succ hb hf]
    · have := hdn rfl
      subst this
      simp [closed_iota_view.cursor.prev, closed_iota_view.cursor.next_eq]

/-- Witness of the amended C18 on `int`, at the live cursor at 3 of the closed sequence
up to 5: `next()` then `prev()` goes through the cursor at 4 and back, and `prev()` then
`next()` goes through the cursor at 2 and back. -/
theorem C18_prev_next_inverse_witness :
    (0 < int32.bits ∧ (⟨3, 5, false⟩ : closed_iota_view.cursor).done_ = false ∧
      int32.InRange (⟨3, 5, false⟩ : closed_iota_view.cursor).from_ ∧
      int32.IncDefined (⟨3, 5, false⟩ : closed_iota_view.cursor).from_ ∧
      (⟨3, 5, false⟩ : closed_iota_view.cursor).Valid int32 ∧
      int32.DecDefined (⟨3, 5, false⟩ : closed_iota_view.cursor).from_ ∧
      ¬ ((⟨3, 5, false⟩ : closed_iota_view.cursor).done_ = false ∧
        (⟨3, 5, false⟩ : closed_iota_view.cursor).from_ = int32.minVal ∧
        (⟨3, 5, false⟩ : closed_iota_view.cursor).to_ = int32.maxVal)) ∧
    ((⟨3, 5, false⟩ : closed_iota_view.cursor).next int32).bind
        (closed_iota_view.cursor.prev int32) = some ⟨3, 5, false⟩ ∧
    ((⟨3, 5, false⟩ : closed_iota_view.cursor).prev int32).bind
        (closed_iota_view.cursor.next int32) = some ⟨3, 5, false⟩ ∧
    (⟨3, 5, false⟩ : closed_iota_view.cursor).prev int32 = some ⟨2, 5, false⟩ ∧
    (⟨3, 5, false⟩ : closed_iota_view.cursor).next int32 = some ⟨4, 5, false⟩ :=
  ⟨by decide,
    (C18_prev_next_inverse int32 (by decide) ⟨3, 5, false⟩).1 (by decide) (by decide)
      (Or.inr (by decide)),
    (C18_prev_next_inverse int32 (by decide) ⟨3, 5, false⟩).2 (by decide)
      (Or.inr (by decide)) (by decide),
    by decide, by decide⟩

/-- Claim C19 fails as stated: on `unsigned int` the live cursor at 0 of the closed
sequence up to 5 satisfies the state predicate, but `prev()`, and likewise
`advance(-1)`, wraps its current value around to 4294967295, which is beyond the bound:
the predicate is not preserved. -/
theorem C19_invariant_counterexample :
    (⟨0, 5, false⟩ : closed_iota_view.cursor).Inv ∧
      (⟨0, 5⟩ : closed_iota_view).begin_cursor = ⟨0, 5, false⟩ ∧
      (⟨0, 5, false⟩ : closed_iota_view.cursor).prev uint32 = some ⟨4294967295, 5, false⟩ ∧
      (⟨0, 5, false⟩ : closed_iota_view.cursor).advance uint32 64 (-1)
        = some ⟨4294967295, 5, false⟩ ∧
      ¬ (⟨4294967295, 5, false⟩ : closed_iota_view.cursor).Inv := by
  decide

/-- Claim C19, amended: `next()` on a live cursor moves to the exhausted state if and
only if the current value equals the bound, and otherwise only increments the current
value; the state predicate holds for `begin_cursor()` and `end_cursor()` of every
validly constructed closed sequence and is preserved by `next()` on a live cursor, by
`prev()` on a cursor that is exhausted or whose current value is above the smallest
value of its type, by every `advance(n)` with `n > 0` that passes its check, and by every
`advance(n)` with `n <= 0` whose target `from_ + n` (plus one from the exhausted cursor)
is not below the smallest value of the type. -/
theorem C19_closed_cursor_invariant (I : IntTy) (d : Nat) (hb : 0 < I.bits)
    (hd : I.bits < d) (c : closed_iota_view.cursor) (hc : c.Valid I) :
    (c.done_ = false →
        c.next I = some (if c.from_ = c.to_ then ⟨c.from_, c.to_, true⟩
          else ⟨c.from_ + 1, c.to_, false⟩) ∧
        ∀ c', c.next I = some c' →
          (c'.done_ = true ↔ c.from_ = c.to_) ∧ c'.Valid I ∧ c'.Inv) ∧
      (∀ a b : Int, I.InRange a → I.InRange b → ∀ v, views.closed_iota a b = some v →
        v.begin_cursor.Valid I ∧ v.begin_cursor.Inv ∧ v.end_cursor.Valid I ∧
          v.end_cursor.Inv) ∧
      ((c.done_ = true ∨ I.minVal < c.from_) →
        ∃ c', c.prev I = some c' ∧ c'.Valid I ∧ c'.Inv) ∧
      (∀ n : Int, 0 < n → (diffTy d).InRange n →
        ∀ c', c.advance I d n = some c' → c'.Valid I ∧ c'.Inv) ∧
      (∀ n : Int, n ≤ 0 → (diffTy d).InRange n → I.minVal ≤ c.from_ + n + b2i c.done_ →
        ∃ c', c.advance I d n = some c' ∧ c'.Valid I ∧ c'.Inv) := by
  have hc0 := hc
  obtain ⟨hf, ht, hle, hdn⟩ := hc
  refine ⟨?_, ?_, ?_, ?_, ?_⟩
  · intro hlive
    have hnext : c.next I = some (if c.from_ = c.to_ then ⟨c.from_, c.to_, true⟩
        else ⟨c.from_ + 1, c.to_, false⟩) := by
      obtain ⟨f, T, dn⟩ := c
      simp only at hlive hf ht hle ⊢
      subst hlive
      by_cases hfT : f = T
      · simp [closed_iota_view.cursor.next_eq, hfT]
      · have hr : I.InRange (f + 1) := by
          have : f < T := lt_of_le_of_ne hle hfT
          unfold IntTy.InRange at hf ht ⊢; omega
        have hne : (f == T) = false := by simpa using hfT
        simp [closed_iota_view.cursor.next_eq, hfT, hne, I.wrap_of_inRange hb hr]
    refine ⟨hnext, ?_⟩
    intro c' hc'
    rw [hnext] at hc'
    by_cases hfT : c.from_ = c.to_
    · simp only [hfT, if_true, Option.some.injEq] at hc'
      subst hc'
      have hv : (⟨c.to_, c.to_, true⟩ : closed_iota_view.cursor).Valid I :=
        ⟨ht, ht, le_refl _, fun _ => rfl⟩
      exact ⟨by simp [hfT], hv, hv.inv⟩
    · simp only [hfT, if_false, Option.some.injEq] at hc'
      subst hc'
      have hlt : c.from_ < c.to_ := lt_of_le_of_ne hle hfT
      have hr : I.InRange (c.from_ + 1) := by
        unfold IntTy.InRange at hf ht ⊢; omega
      have hv : (⟨c.from_ + 1, c.to_, false⟩ : closed_iota_view.cursor).Valid I :=
        ⟨hr, ht, by simp only; omega, by simp⟩
      exact ⟨by simp [hfT], hv, hv.inv⟩
  · intro a b ha hb' v hv
    have hab : a ≤ b := by
      by_contra hcon
      simp [views.closed_iota, closed_iota_view.mk?, closed_iota_view.closed_check_bounds_eq,
        hcon] at hv
    have hv' : v = ⟨a, b⟩ := by
      simp [views.closed_iota, closed_iota_view.mk?, closed_iota_view.closed_check_bounds_eq,
        hab] at hv
      exact hv.symm
    subst hv'
    have h1 : (⟨a, b⟩ : closed_iota_view).begin_cursor.Valid I :=
      ⟨ha, hb', hab, by simp [closed_iota_view.begin_cursor]⟩
    have h2 : (⟨a, b⟩ : closed_iota_view).end_cursor.Valid I :=
      ⟨hb', hb', le_refl _, fun _ => rfl⟩
    exact ⟨h1, h1.inv, h2, h2.inv⟩
  · intro hcase
    obtain ⟨f, T, dn⟩ := c
    simp only at hf ht hle hdn hcase
    cases dn
    · have hmin : I.minVal < f := by
        rcases hcase with h | h
        · cases h
        · exact h
      have hr : I.InRange (f - 1) := by
        unfold IntTy.InRange at hf ⊢; omega
      have hv : (⟨f - 1, T, false⟩ : closed_iota_view.cursor).Valid I :=
        ⟨hr, ht, by simp only; omega, by simp⟩
      exact ⟨_, by simp [closed_iota_view.cursor.prev, I.wrap_of_inRange hb hr], hv, hv.inv⟩
    · have hv : (⟨f, T, false⟩ : closed_iota_view.cursor).Valid I :=
        ⟨hf, ht, hle, by simp⟩
      exact ⟨_, by simp [closed_iota_view.cursor.prev], hv, hv.inv⟩
  · intro n hn hnD c' hc'
    have hn2 := (closed_iota_view.diffTy_inRange hnD).2
    cases hdone : c.done_
    · rw [closed_iota_view.cursor.advance_pos_live I d hb hd c n hf ht hdone hn hn2] at hc'
      by_cases h1 : n - 1 ≤ c.to_ - c.from_
      · simp only [h1, if_true, Option.some.injEq] at hc'
        subst hc'
        by_cases h2 : c.to_ - c.from_ ≤ n - 1
        · have he : c.from_ + n - 1 = c.to_ := by omega
          have hv : (⟨c.from_ + n - b2i (decide (c.to_ - c.from_ ≤ n - 1)), c.to_,
              decide (c.to_ - c.from_ ≤ n - 1)⟩ : closed_iota_view.cursor).Valid I := by
            simp only [h2, decide_True, b2i, if_true, he]
            exact ⟨ht, ht, le_refl _, fun _ => rfl⟩
          exact ⟨hv, hv.inv⟩
        · have hr : I.InRange (c.from_ + n) := by
            unfold IntTy.InRange at hf ht ⊢; omega
          have hv : (⟨c.from_ + n - b2i (decide (c.to_ - c.from_ ≤ n - 1)), c.to_,
              decide (c.to_ - c.from_ ≤ n - 1)⟩ : closed_iota_view.cursor).Valid I := by
            simp only [h2, decide_False, b2i, Bool.false_eq_true, if_false, sub_zero]
            exact ⟨hr, ht, by simp only; omega, by simp⟩
          exact ⟨hv, hv.inv⟩
      · simp only [h1, if_false, reduceCtorEq] at hc'
    · rw [closed_iota_view.cursor.advance_pos_done I d hb hd c n hc0 hdone hn hn2] at hc'
      cases hc'
  · intro n hn hnD hmin
    have hn1 := (closed_iota_view.diffTy_inRange hnD).1
    rcases eq_or_lt_of_le hn with h0 | hneg
    · subst h0
      exact ⟨c, closed_iota_view.cursor.advance_zero I d c, hc0, hc0.inv⟩
    · have hb2 : 0 ≤ b2i c.done_ ∧ b2i c.done_ ≤ 1 := by unfold b2i; split <;> omega
      have hr : I.InRange (c.from_ + (n + b2i c.done_)) := by
        unfold IntTy.InRange at hf ⊢; omega
      have hv : (⟨c.from_ + (n + b2i c.done_), c.to_, false⟩ :
          closed_iota_view.cursor).Valid I :=
        ⟨hr, ht, by simp only; omega, by simp⟩
      exact ⟨_, closed_iota_view.cursor.advance_neg I d hb hd c n hf hneg hn1 hr, hv, hv.inv⟩

/-- Witness of the amended C19 on `int` with a 64-bit difference type: `prev()` on the
live cursor at 3 of the closed sequence up to 5 keeps the state predicate. -/
theorem C19_closed_cursor_invariant_witness :
    (0 < int32.bits ∧ int32.bits < 64 ∧ (⟨3, 5, false⟩ : closed_iota_view.cursor).Valid int32 ∧
      int32.minVal < (⟨3, 5, false⟩ : closed_iota_view.cursor).from_) ∧
    ∃ c', (⟨3, 5, false⟩ : closed_iota_view.cursor).prev int32 = some c' ∧ c'.Valid int32 ∧
      c'.Inv :=
  ⟨by decide,
    (C19_closed_cursor_invariant int32 64 (by decide) (by decide) ⟨3, 5, false⟩
      (by decide)).2.2.1 (Or.inr (by decide))⟩


namespace closed_iota_view

end closed_iota_view

/-- The list from `a` up to `b` holds exactly the integers `v` with `a <= v < b`. -/
theorem intsUpTo_mem (a b v : Int) : v ∈ intsUpTo a b ↔ a ≤ v ∧ v < b := by
  unfold intsUpTo
  rw [List.mem_map]
  constructor
  · rintro ⟨k, hk, rfl⟩
    rw [List.mem_range] at hk
    omega
  · rintro ⟨h1, h2⟩
    refine ⟨(v - a).toNat, ?_, ?_⟩
    · rw [List.mem_range]; omega
    · rw [Int.toNat_of_nonneg (by omega)]; ring

/-- The call `next()` increments exactly when `incremented` names an operand. -/
theorem closed_iota_view.cursor.next_incremented (I : IntTy) (c c' : closed_iota_view.cursor)
    (h : c.next I = some c') :
    (c.from_ = c.to_ → c.incremented = none ∧ c'.from_ = c.from_ ∧ c'.done_ = true) ∧
      (c.from_ ≠ c.to_ → c.incremented = some c.from_ ∧ c'.from_ = I.wrap (c.from_ + 1) ∧
        c'.done_ = false) := by
  obtain ⟨f, T, dn⟩ := c
  cases dn
  · by_cases hfT : f = T
    · subst hfT
      simp only [closed_iota_view.cursor.next_eq, Bool.not_false, if_true, beq_self_eq_true,
        Option.some.injEq] at h
      subst h
      simp [closed_iota_view.cursor.incremented, RANGES_EXPECT_bind]
    · have hne : (f == T) = false := by simpa using hfT
      simp only [closed_iota_view.cursor.next_eq, Bool.not_false, if_true, hne,
        Bool.false_eq_true, if_false, Option.some.injEq] at h
      subst h
      simp [closed_iota_view.cursor.incremented, RANGES_EXPECT_bind, hfT]
  · simp [closed_iota_view.cursor.next_eq] at h

/-- The increments of the traversal loop of `closed_iota_view` from the live cursor at
`a` to the exhausted cursor at `b >= a` are applied to `a, ..., b - 1`. -/
theorem closed_iota_view.closed_increments_spec (I : IntTy) (hb : 0 < I.bits) (b : Int)
    (hb' : I.InRange b) (fuel : Nat) : ∀ a : Int, I.InRange a → a ≤ b →
      (b - a).toNat + 1 ≤ fuel →
      closed_iota_view.increments I fuel ⟨a, b, false⟩ ⟨b, b, true⟩ = some (intsUpTo a b) := by
  induction fuel with
  | zero =>
    intro a _ _ hf
    omega
  | succ fuel ih =>
    intro a ha hab hf
    rcases eq_or_lt_of_le hab with h | h
    · subst h
      cases fuel <;>
        simp [closed_iota_view.increments, closed_iota_view.cursor.equal,
          closed_iota_view.cursor.read_eq, closed_iota_view.cursor.next_eq,
          closed_iota_view.cursor.incremented, RANGES_EXPECT_bind, intsUpTo_self]
    · have hne : (a == b) = false := by
        simp only [beq_eq_false_iff_ne, ne_eq]; omega
      have hr : I.InRange (a + 1) := by
        unfold IntTy.InRange at ha hb' ⊢; omega
      have hQ : (true == false) = false := rfl
      simp only [closed_iota_view.increments, closed_iota_view.cursor.equal, hQ, Bool.and_false,
        Bool.false_eq_true, if_false, closed_iota_view.cursor.read_eq, Bool.not_false, if_true,
        closed_iota_view.cursor.next_eq, hne, I.wrap_of_inRange hb hr,
        closed_iota_view.cursor.incremented, RANGES_EXPECT_bind]
      rw [ih (a + 1) hr (by omega) (by omega), intsUpTo_cons h]
      rfl

/-- The traversal loop of `closed_iota_view` from the live cursor at `a` to the exhausted
cursor at `b >= a` goes through the live cursors at `a, ..., b` and then the exhausted
cursor. -/
theorem closed_iota_view.closed_visited_spec (I : IntTy) (hb : 0 < I.bits) (b : Int)
    (hb' : I.InRange b) (fuel : Nat) : ∀ a : Int, I.InRange a → a ≤ b →
      (b - a).toNat + 1 ≤ fuel →
      closed_iota_view.visited I fuel ⟨a, b, false⟩ ⟨b, b, true⟩ =
        some ((intsUpTo a (b + 1)).map (fun v => (⟨v, b, false⟩ : closed_iota_view.cursor))
          ++ [⟨b, b, true⟩]) := by
  induction fuel with
  | zero =>
    intro a _ _ hf
    omega
  | succ fuel ih =>
    intro a ha hab hf
    rcases eq_or_lt_of_le hab with h | h
    · subst h
      have h1 : intsUpTo a (a + 1) = [a] := by
        rw [intsUpTo_cons (by omega), intsUpTo_self]
      cases fuel <;>
        simp [closed_iota_view.visited, closed_iota_view.cursor.equal,
          closed_iota_view.cursor.read_eq, closed_iota_view.cursor.next_eq, h1]
    · have hne : (a == b) = false := by
        simp only [beq_eq_false_iff_ne, ne_eq]; omega
      have hr : I.InRange (a + 1) := by
        unfold IntTy.InRange at ha hb' ⊢; omega
      have hQ : (true == false) = false := rfl
      simp only [closed_iota_view.visited, closed_iota_view.cursor.equal, hQ, Bool.and_false,
        Bool.false_eq_true, if_false, closed_iota_view.cursor.read_eq, Bool.not_false, if_true,
        closed_iota_view.cursor.next_eq, hne, I.wrap_of_inRange hb hr]
      rw [ih (a + 1) hr (by omega) (by omega), intsUpTo_cons (show a < b + 1 by omega)]
      rfl

/-- Claim C21: for `a <= b` of one integral type, `b` the largest value of the type
included, the full traversal of `closed_iota_view(a, b)` performs exactly `b - a`
increments, applied to `a, ..., b - 1`: each operand is strictly less than `b`, so its
increment does not leave the type and does not wrap; the call of `next()` at the bound
sets `done_` and increments nothing; and the current value of every cursor that the
traversal goes through is at most `b`. -/
theorem C21_closed_traversal_increments (I : IntTy) (hb : 0 < I.bits) (a b : Int)
    (ha : I.InRange a) (hb' : I.InRange b) (hab : a ≤ b) :
    (∀ c c' : closed_iota_view.cursor, c.next I = some c' →
        (c.from_ = c.to_ → c.incremented = none ∧ c'.from_ = c.from_ ∧ c'.done_ = true) ∧
        (c.from_ ≠ c.to_ → c.incremented = some c.from_ ∧
          c'.from_ = I.wrap (c.from_ + 1) ∧ c'.done_ = false)) ∧
      (∀ fuel, (b - a).toNat + 1 ≤ fuel →
        closed_iota_view.toList I fuel ⟨a, b⟩ = .finished (intsUpTo a (b + 1)) ∧
        closed_iota_view.increments I fuel (⟨a, b⟩ : closed_iota_view).begin_cursor
          (⟨a, b⟩ : closed_iota_view).end_cursor = some (intsUpTo a b) ∧
        closed_iota_view.visited I fuel (⟨a, b⟩ : closed_iota_view).begin_cursor
          (⟨a, b⟩ : closed_iota_view).end_cursor =
          some ((intsUpTo a (b + 1)).map (fun v => (⟨v, b, false⟩ : closed_iota_view.cursor))
            ++ [⟨b, b, true⟩])) ∧
      ((intsUpTo a b).length : Int) = b - a ∧
      (∀ v ∈ intsUpTo a b, a ≤ v ∧ v < b ∧ v < I.maxVal ∧ I.InRange (v + 1) ∧
        I.wrap (v + 1) = v + 1) ∧
      (∀ c ∈ (intsUpTo a (b + 1)).map (fun v => (⟨v, b, false⟩ : closed_iota_view.cursor))
          ++ [⟨b, b, true⟩], c.from_ ≤ b ∧ c.from_ ≤ I.maxVal ∧ I.InRange c.from_) := by
  refine ⟨fun c c' h => closed_iota_view.cursor.next_incremented I c c' h, ?_, ?_, ?_, ?_⟩
  · intro fuel hf
    exact ⟨closed_iota_view.closed_traverse_spec I hb b hb' fuel a ha hab hf,
      closed_iota_view.closed_increments_spec I hb b hb' fuel a ha hab hf,
      closed_iota_view.closed_visited_spec I hb b hb' fuel a ha hab hf⟩
  · rw [intsUpTo_length]
    omega
  · intro v hv
    obtain ⟨h1, h2⟩ := (intsUpTo_mem a b v).1 hv
    have hr : I.InRange (v + 1) := by
      unfold IntTy.InRange at ha hb' ⊢; omega
    exact ⟨h1, h2, by have := hb'.2; omega, hr, I.wrap_of_inRange hb hr⟩
  · intro c hc
    rw [List.mem_append, List.mem_map, List.mem_singleton] at hc
    rcases hc with ⟨v, hv, rfl⟩ | rfl
    · obtain ⟨h1, h2⟩ := (intsUpTo_mem a (b + 1) v).1 hv
      have hr : I.InRange v := by
        unfold IntTy.InRange at ha hb' ⊢; omega
      exact ⟨by simp only; omega, hr.2, hr⟩
    · exact ⟨le_refl _, hb'.2, hb'⟩

/-- Witness of C21 on `int` with the bound at `INT32_MAX`: the traversal of the closed
sequence from 2147483645 to 2147483647 increments 2147483645 and 2147483646 only. -/
theorem C21_closed_traversal_increments_witness :
    (0 < int32.bits ∧ int32.InRange 2147483645 ∧ int32.InRange 2147483647 ∧
      (2147483645 : Int) ≤ 2147483647 ∧ int32.maxVal = 2147483647) ∧
    (closed_iota_view.toList int32 3 ⟨2147483645, 2147483647⟩
        = .finished (intsUpTo 2147483645 (2147483647 + 1)) ∧
      closed_iota_view.increments int32 3
          (⟨2147483645, 2147483647⟩ : closed_iota_view).begin_cursor
          (⟨2147483645, 2147483647⟩ : closed_iota_view).end_cursor
        = some (intsUpTo 2147483645 2147483647) ∧
      closed_iota_view.visited int32 3
          (⟨2147483645, 2147483647⟩ : closed_iota_view).begin_cursor
          (⟨2147483645, 2147483647⟩ : closed_iota_view).end_cursor =
        some ((intsUpTo 2147483645 (2147483647 + 1)).map
            (fun v => (⟨v, 2147483647, false⟩ : closed_iota_view.cursor))
          ++ [⟨2147483647, 2147483647, true⟩])) ∧
    intsUpTo 2147483645 2147483647 = [2147483645, 2147483646] ∧
    closed_iota_view.toList int32 3 ⟨2147483645, 2147483647⟩
      = .finished [2147483645, 2147483646, 2147483647] :=
  ⟨by decide,
    (C21_closed_traversal_increments int32 (by decide) 2147483645 2147483647 (by decide)
      (by decide) (by decide)).2.1 3 (by decide),
    by decide, by decide⟩

end ranges
